import Mathlib

/-
  Verification of the m365backup repository storage core against its
  specification.

  Shallow embedding conventions:
  * Rust `Vec<u8>` / `&[u8]` are `List Nat` (bytes carried opaquely; every
    byte the code itself fabricates, such as the little-endian length
    trailer, is < 256).
  * Rust `String` / `&str` are `List Char`.
  * `u32` values (pack offsets and lengths, the manifest-length trailer) are
    `Nat` with an explicit `% 2^32` wherever the source casts with `as u32`
    or adds two `u32`s.
  * The object store (`Backend` trait) is an association list from keys to
    byte strings; `write` is whole-object replacement, `list prefix` returns
    the lexicographically sorted immediate children, as `LocalBackend` does.
  * Fallible operations return `Option` / `Except`.
  * External crates that the core calls (fastcdc's content-defined cut
    points, blake3 hashing, uuid generation, serde_json serialization) are
    not part of this repository's sources; they enter the model as explicit
    parameters collected in `Params`, constrained by hypotheses taken from
    the specification where a claim needs them.
-/

namespace M365B

abbrev Bytes := List Nat

abbrev Str := List Char

/-- Modulus of the Rust `u32` type. -/
def U32 : Nat := 4294967296

/-- Constant from src/crates/core/src/chunk.rs: `MIN_CHUNK = 512 * 1024`. -/
def MIN_CHUNK : Nat := 524288

/-- Constant from src/crates/core/src/chunk.rs: `AVG_CHUNK = 1024 * 1024` (only handed to
fastcdc; it never appears in the core's own logic). -/
def AVG_CHUNK : Nat := 1048576

/-- Constant from src/crates/core/src/chunk.rs: `MAX_CHUNK = 8 * 1024 * 1024`. -/
def MAX_CHUNK : Nat := 8388608

/-- Constant from src/crates/core/src/pack.rs: `TARGET_PACK_SIZE = 16 * 1024 * 1024`. -/
def TARGET_PACK_SIZE : Nat := 16777216

/-- Boolean test that `pat` is a leading segment of `s` (Rust
`str::starts_with`). -/
def startsB : Str → Str → Bool
  | [], _ => true
  | _ :: _, [] => false
  | a :: ps, b :: ss => decide (a = b) && startsB ps ss

/-- Boolean substring test (Rust `str::contains`): some tail of `s` begins
with `pat`. -/
def hasSubB : Str → Str → Bool
  | [], pat => startsB pat []
  | c :: rest, pat => startsB pat (c :: rest) || hasSubB rest pat

/-- Boolean test that `s` ends with `pat` (Rust `str::ends_with`). -/
def endsB (s pat : Str) : Bool := startsB pat.reverse s.reverse

/-- The segment of `s` after its last '/', or all of `s` when it has none
(Rust `path.rsplit('/').next()`, which always yields a first piece). -/
def afterLastSlash (s : Str) : Str :=
  (s.reverse.takeWhile (fun c => decide (c ≠ '/'))).reverse

/-- Lexicographic comparison of strings by character code, as Rust's `Ord`
for `String` compares byte sequences. -/
def strLeB : Str → Str → Bool
  | [], _ => true
  | _ :: _, [] => false
  | a :: xs, b :: ys => if a = b then strLeB xs ys else decide (a.toNat ≤ b.toNat)

def insertStr (x : Str) : List Str → List Str
  | [] => [x]
  | y :: ys => if strLeB x y then x :: y :: ys else y :: insertStr x ys

/-- Insertion sort standing in for `Vec::sort` on the listed keys. -/
def sortStrs : List Str → List Str
  | [] => []
  | x :: xs => insertStr x (sortStrs xs)

/-! ## Object store (src/crates/core/src/backend/mod.rs, local.rs)

The `Backend` trait is a flat key-to-bytes map.  `LocalBackend` maps keys to
files below a root; `write` replaces the whole object, `list prefix`
returns `prefix ++ "/" ++ name` for every immediate child, sorted. -/

abbrev Store := List (Str × Bytes)

def Store.read : Store → Str → Option Bytes
  | [], _ => none
  | e :: s, k => if e.1 = k then some e.2 else Store.read s k

def Store.write (s : Store) (k : Str) (v : Bytes) : Store :=
  (s.filter (fun e => decide (e.1 ≠ k))) ++ [(k, v)]

def Store.exists (s : Store) (k : Str) : Bool :=
  (Store.read s k).isSome

/-- A key `k` is an immediate child of directory `pre` when it is
`pre ++ "/" ++ name` with `name` free of '/'. -/
def childOfB (pre k : Str) : Bool :=
  startsB (pre ++ ['/']) k && (k.drop (pre.length + 1)).all (fun c => decide (c ≠ '/'))

def Store.list (s : Store) (pre : Str) : List Str :=
  sortStrs ((s.map (fun e => e.1)).filter (fun k => childOfB pre k))

/-- A write whose success is governed by a fault predicate on keys: models a
`Backend::write` call that may return `Err` (transient object-store
failure). -/
def Store.writeE (wfail : Str → Bool) (s : Store) (k : Str) (v : Bytes) : Option Store :=
  if wfail k then none else some (Store.write s k v)

/-! ## Index (src/crates/core/src/index.rs)

`HashMap<[u8; 32], BlobLocation>` modelled as an association list with
insert-replaces-key semantics. -/

structure BlobLocation where
  pack_id : Str
  offset : Nat
  length : Nat
deriving DecidableEq, Repr

structure Index where
  entries : List (Bytes × BlobLocation)
deriving DecidableEq, Repr

def Index.new : Index := ⟨[]⟩

def Index.add (i : Index) (h : Bytes) (pid : Str) (off len : Nat) : Index :=
  ⟨(i.entries.filter (fun e => decide (e.1 ≠ h))) ++ [(h, ⟨pid, off, len⟩)]⟩

def Index.contains (i : Index) (h : Bytes) : Bool :=
  (i.entries.find? (fun e => decide (e.1 = h))).isSome

def Index.lookup (i : Index) (h : Bytes) : Option BlobLocation :=
  (i.entries.find? (fun e => decide (e.1 = h))).map (fun e => e.2)

def Index.len (i : Index) : Nat := i.entries.length

/-! ## Chunks (src/crates/core/src/chunk.rs) -/

structure ChunkRef where
  hash : Bytes
  length : Nat
  offset : Nat
deriving DecidableEq, Repr

structure Chunk where
  hash : Bytes
  offset : Nat
  length : Nat
  data : Bytes
deriving DecidableEq, Repr

def Chunk.to_ref (c : Chunk) : ChunkRef := ⟨c.hash, c.length, c.offset⟩

/-! ## Packs (src/crates/core/src/pack.rs) -/

structure PackedBlob where
  hash : Bytes
  offset : Nat
  length : Nat
deriving DecidableEq, Repr

structure PackHeader where
  id : Str
  blobs : List PackedBlob
deriving DecidableEq, Repr

structure PackBuilder where
  id : Str
  data : Bytes
  blobs : List PackedBlob
deriving DecidableEq, Repr

/-- Model of `PackBuilder::new`: the source draws a fresh uuid; the model receives the drawn id. -/
def PackBuilder.new (id : Str) : PackBuilder := ⟨id, [], []⟩

/-- Model of `PackBuilder::add`: append the chunk's bytes and record
`(hash, prior data.len() as u32, chunk.data.len() as u32)`; the `as u32`
casts truncate modulo 2^32. -/
def PackBuilder.add (b : PackBuilder) (c : Chunk) : PackBuilder :=
  { b with
    data := b.data ++ c.data
    blobs := b.blobs ++ [⟨c.hash, b.data.length % U32, c.data.length % U32⟩] }

def PackBuilder.should_flush (b : PackBuilder) : Bool :=
  decide (TARGET_PACK_SIZE ≤ b.data.length)

def PackBuilder.is_empty (b : PackBuilder) : Bool := b.blobs.isEmpty

/-- The four little-endian bytes of `(n : u32).to_le_bytes()`. -/
def toLE4 (n : Nat) : Bytes :=
  [n % 256, n / 256 % 256, n / 65536 % 256, n / 16777216 % 256]

/-- Model of `u32::from_le_bytes` on a four-byte slice; other shapes cannot reach it
in the source (`try_into().unwrap()` on an exact four-byte slice). -/
def fromLE4 : Bytes → Nat
  | [a, b, c, d] => a + 256 * b + 65536 * c + 16777216 * d
  | _ => 0

structure PackFile where
  header : PackHeader
  data : Bytes
deriving DecidableEq, Repr

/-- Model of `PackBuilder::finalize`: serialize the header (serde_json enters as the
`enc` parameter), append it to the payload, then append the four
little-endian bytes of `header_json.len() as u32`. -/
def PackBuilder.finalize (enc : PackHeader → Bytes) (b : PackBuilder) : PackFile :=
  let header : PackHeader := ⟨b.id, b.blobs⟩
  let hj := enc header
  ⟨header, b.data ++ hj ++ toLE4 (hj.length % U32)⟩

/-- Model of `PackFile::parse`: read the trailing 4 bytes as the manifest length,
bounds-check, deserialize the manifest slice (`dec` standing for
serde_json), and keep the raw bytes. -/
def PackFile.parse (dec : Bytes → Option PackHeader) (data : Bytes) : Option PackFile :=
  if data.length < 4 then none
  else
    let len := data.length
    let header_len := fromLE4 (data.drop (len - 4))
    if len < 4 + header_len then none
    else
      let header_start := len - 4 - header_len
      match dec ((data.take (len - 4)).drop header_start) with
      | none => none
      | some h => some ⟨h, data⟩

/-- Model of `PackFile::extract_blob`: locate the descriptor by hash and slice
`data[offset .. offset + length]`.  The sum `b.offset + b.length` is a `u32`
addition, hence the `% 2^32`; the Lean `take`/`drop` clamp where the Rust
slice would panic out of bounds, and the in-bounds theorems below show the
claims' packs stay in range, where both readings agree. -/
def PackFile.extract_blob (p : PackFile) (h : Bytes) : Option Bytes :=
  (p.header.blobs.find? (fun b => decide (b.hash = h))).map
    (fun b => (p.data.take ((b.offset + b.length) % U32)).drop b.offset)

/-! ## Content-defined chunking (src/crates/core/src/chunk.rs)

Modelled from the spec: the splitter itself is `fastcdc::v2020::FastCDC`,
an external crate not under src/.  Spec 4.3: the output is "an ordered
sequence of chunks covering the input exactly once"; the iterator emits
chunks only while bytes remain, each step cutting off one chunk; a step
whose remaining input has length at most `min_chunk` takes the whole
remainder ("Sub-min inputs produce a single chunk of the input's length"),
and a longer remainder is cut at a rolling-hash boundary, abstracted here
as the `cutBig` parameter.  An empty input therefore yields no chunks: the
iterator stops as soon as nothing remains.  The repository's own code
(chunk.rs lines 24-38) then maps every emitted (offset, length) piece to a
`Chunk` carrying the slice, its blake3 hash (the `hashFn` parameter) and
its offset in the input. -/

def cutLen (cutBig : Bytes → Nat) (d : Bytes) : Nat :=
  if d.length ≤ MIN_CHUNK then d.length else cutBig d

def cdcSplit (cutBig : Bytes → Nat) : Nat → Bytes → List Bytes
  | 0, _ => []
  | _ + 1, [] => []
  | fuel + 1, c :: rest =>
    let l := cutLen cutBig (c :: rest)
    (c :: rest).take l :: cdcSplit cutBig fuel ((c :: rest).drop l)

/-- chunk.rs: turn each piece into a `Chunk` with its hash, running offset
in the input, length and data. -/
def chunksOfPieces (hashFn : Bytes → Bytes) : Nat → List Bytes → List Chunk
  | _, [] => []
  | off, p :: ps => ⟨hashFn p, off, p.length, p⟩ :: chunksOfPieces hashFn (off + p.length) ps

/-! ## Snapshots (src/crates/core/src/snapshot.rs)

`DateTime<Utc>` is carried as a comparable instant (`Nat`);
`serde_json::Value` metadata values and the `f64` duration are never
computed with by the core, so they are carried as opaque text / an opaque
numeric code. -/

inductive Service
  | onedrive
  | exchange
  | sharepoint
  | teams
deriving DecidableEq, Repr

inductive NodeType
  | file
  | directory
  | mail
  | calendar
  | contact
  | message
deriving DecidableEq, Repr

structure TreeNode where
  path : Str
  node_type : NodeType
  size : Nat
  modified : Option Nat
  chunks : List ChunkRef
  metadata : List (Str × Str)
deriving DecidableEq, Repr

structure Tree where
  nodes : List TreeNode
deriving DecidableEq, Repr

structure BackupStats where
  total_items : Nat
  new_items : Nat
  unchanged_items : Nat
  total_bytes : Nat
  new_bytes : Nat
  deduplicated_bytes : Nat
  duration_secs : Nat
deriving DecidableEq, Repr

structure Snapshot where
  id : Str
  timestamp : Nat
  tenant : Str
  service : Service
  user : Option Str
  parent : Option Str
  tree : Tree
  delta_tokens : List (Str × Str)
  stats : BackupStats
deriving DecidableEq, Repr

def insertSnap (x : Snapshot) : List Snapshot → List Snapshot
  | [] => [x]
  | y :: ys => if y.timestamp ≤ x.timestamp then x :: y :: ys else y :: insertSnap x ys

/-- Model of `snapshots.sort_by(|a, b| b.timestamp.cmp(&a.timestamp))`: stable sort
by timestamp descending, modelled as insertion sort with the same
comparator. -/
def sortSnapsDesc : List Snapshot → List Snapshot
  | [] => []
  | x :: xs => insertSnap x (sortSnapsDesc xs)

/-! ## External functions as parameters

Everything the core delegates to external crates, gathered in one record:
blake3 (`hashFn`), the fastcdc boundary choice for above-min inputs
(`cutBig`), the stream of `uuid::new_v4` draws (`idGen`, fed by a draw
counter), and serde_json's encoders/decoders for the three serialized
shapes. -/

structure Params where
  hashFn : Bytes → Bytes
  cutBig : Bytes → Nat
  idGen : Nat → Str
  encHeader : PackHeader → Bytes
  decHeader : Bytes → Option PackHeader
  encIndex : Index → Bytes
  encSnap : Snapshot → Bytes
  decSnap : Bytes → Option Snapshot

/-- Model of `Chunker::chunk` (chunk.rs lines 24-38): run the content-defined
splitter over the input, then map every piece to a `Chunk`. -/
def Chunker.chunk (P : Params) (data : Bytes) : List Chunk :=
  chunksOfPieces P.hashFn 0 (cdcSplit P.cutBig data.length data)

/-! ## Repository coordinator (src/crates/core/src/repository.rs) -/

def packsDir : Str := "packs".toList

def snapshotsDir : Str := "snapshots".toList

def indexKey : Str := "index.json".toList

def packsKey (pid : Str) : Str := "packs/".toList ++ pid

def snapKey (id : Str) : Str := "snapshots/".toList ++ id ++ ".json".toList

/-- Repository state: the in-memory index, the object store, and the
position in the uuid draw stream. -/
structure Repository where
  index : Index
  store : Store
  ctr : Nat
deriving DecidableEq, Repr

/-- Model of `Repository::flush_pack` (repository.rs lines 202-215) with all writes
succeeding: finalize the pack, insert every blob of the pack header into
the in-memory index, write the pack object under `packs/<id>`, rewrite
`index.json`. -/
def Repository.flush_pack (P : Params) (r : Repository) (b : PackBuilder) : Repository :=
  let pack := b.finalize P.encHeader
  let pid := pack.header.id
  let idx := pack.header.blobs.foldl (fun i bl => i.add bl.hash pid bl.offset bl.length) r.index
  let st := (Store.write r.store (packsKey pid) pack.data).write indexKey (P.encIndex idx)
  { r with index := idx, store := st }

/-- Model of `Repository::flush_pack` with fallible object-store writes, preserving
the source's statement order (repository.rs lines 202-215): the in-memory
index is mutated by the `for blob in &pack.header.blobs` loop BEFORE
`backend.write(&pack_path, ..)` is attempted, and `self` keeps that
mutation when the write errors out through `?`. -/
def Repository.flush_packE (P : Params) (wfail : Str → Bool) (r : Repository)
    (b : PackBuilder) : Repository × Option Unit :=
  let pack := b.finalize P.encHeader
  let pid := pack.header.id
  let idx := pack.header.blobs.foldl (fun i bl => i.add bl.hash pid bl.offset bl.length) r.index
  match Store.writeE wfail r.store (packsKey pid) pack.data with
  | none => ({ r with index := idx }, none)
  | some st =>
    match Store.writeE wfail st indexKey (P.encIndex idx) with
    | none => ({ r with index := idx, store := st }, none)
    | some st2 => ({ r with index := idx, store := st2 }, some ())

/-- The chunk loop of `Repository::store_data` (repository.rs lines 81-94):
push the ref, skip chunks already indexed, add the rest to the active
builder, and flush whenever the builder crosses the threshold, starting a
fresh builder (with a fresh uuid) afterwards. -/
def Repository.storeLoop (P : Params) :
    List Chunk → Repository → PackBuilder → List ChunkRef →
    List ChunkRef × Repository × PackBuilder
  | [], r, b, refs => (refs, r, b)
  | c :: cs, r, b, refs =>
    let refs' := refs ++ [c.to_ref]
    if r.index.contains c.hash then Repository.storeLoop P cs r b refs'
    else
      let b' := b.add c
      if b'.should_flush then
        let r' := r.flush_pack P b'
        Repository.storeLoop P cs { r' with ctr := r'.ctr + 1 }
          (PackBuilder.new (P.idGen r'.ctr)) refs'
      else Repository.storeLoop P cs r b' refs'

/-- Model of `Repository::store_data` (repository.rs lines 76-101): chunk the input,
run the dedup/pack loop with one active builder, and flush a non-empty
leftover builder at the end. -/
def Repository.store_data (P : Params) (r : Repository) (data : Bytes) :
    List ChunkRef × Repository :=
  let b0 := PackBuilder.new (P.idGen r.ctr)
  let s := Repository.storeLoop P (Chunker.chunk P data) { r with ctr := r.ctr + 1 } b0 []
  if s.2.2.is_empty then (s.1, s.2.1) else (s.1, s.2.1.flush_pack P s.2.2)

/-- Model of `Repository::read_data` (repository.rs lines 104-117): for each ref in
order, look the hash up in the index (absence is an error), fetch the pack
object, slice `[offset .. offset + length]` (a `u32` addition) and
concatenate. -/
def Repository.read_data (r : Repository) : List ChunkRef → Option Bytes
  | [] => some []
  | cr :: rest =>
    match r.index.lookup cr.hash with
    | none => none
    | some loc =>
      match Store.read r.store (packsKey loc.pack_id) with
      | none => none
      | some pd =>
        let blob := (pd.take ((loc.offset + loc.length) % U32)).drop loc.offset
        match Repository.read_data r rest with
        | none => none
        | some acc => some (blob ++ acc)

/-- Model of `Repository::save_snapshot` (repository.rs lines 120-126). -/
def Repository.save_snapshot (P : Params) (r : Repository) (s : Snapshot) : Repository :=
  { r with store := Store.write r.store (snapKey s.id) (P.encSnap s) }

/-- The collection loop of `Repository::list_snapshots`: read and parse
every listed path ending in ".json"; a parse failure aborts the whole
call. -/
def parseSnaps (P : Params) (r : Repository) : List Str → Option (List Snapshot)
  | [] => some []
  | p :: ps =>
    if endsB p ".json".toList then
      match Store.read r.store p with
      | none => none
      | some d =>
        match P.decSnap d with
        | none => none
        | some snap => (parseSnaps P r ps).map (fun l => snap :: l)
    else parseSnaps P r ps

/-- Model of `Repository::list_snapshots` (repository.rs lines 129-141). -/
def Repository.list_snapshots (P : Params) (r : Repository) : Option (List Snapshot) :=
  (parseSnaps P r (Store.list r.store snapshotsDir)).map sortSnapsDesc

inductive SnapErr
  | notFound
  | readFail
  | parseFail
deriving DecidableEq, Repr

/-- The search loop of `Repository::get_snapshot`: return the first listed
path that contains the queried string and ends in ".json", reading and
parsing it; reaching the end is the NotFound bail. -/
def getSnapLoop (P : Params) (r : Repository) (id : Str) :
    List Str → Except SnapErr Snapshot
  | [] => .error .notFound
  | p :: ps =>
    if hasSubB p id && endsB p ".json".toList then
      match Store.read r.store p with
      | none => .error .readFail
      | some d =>
        match P.decSnap d with
        | none => .error .parseFail
        | some s => .ok s
    else getSnapLoop P r id ps

/-- Model of `Repository::get_snapshot` (repository.rs lines 144-153). -/
def Repository.get_snapshot (P : Params) (r : Repository) (id : Str) :
    Except SnapErr Snapshot :=
  getSnapLoop P r id (Store.list r.store snapshotsDir)

structure VerifyResult where
  packs_checked : Nat
  blobs_checked : Nat
  snapshots_checked : Nat
  errors : List Str
deriving DecidableEq, Repr

/-- Model of `VerifyResult::is_ok` (repository.rs lines 232-236). -/
def VerifyResult.is_ok (v : VerifyResult) : Bool := v.errors.isEmpty

/-- One lowercase hex digit, as `hex::encode` produces. -/
def hexDigitChar (n : Nat) : Char :=
  if n < 10 then Char.ofNat (48 + n) else Char.ofNat (87 + n)

/-- Model of `hex::encode` of a byte string: two lowercase hex digits per byte. -/
def hexEncode (bs : Bytes) : Str :=
  (bs.map (fun b => [hexDigitChar (b / 16 % 16), hexDigitChar (b % 16)])).flatten

/-- The error line `format!("blob {} references missing pack {}", ..)` of
`Repository::verify`. -/
def errMsg (h : Bytes) (pid : Str) : Str :=
  "blob ".toList ++ hexEncode h ++ " references missing pack ".toList ++ pid

/-- Model of `Repository::verify` (repository.rs lines 169-196): list `packs/`,
collect the file names, flag every index entry whose pack id is not among
them, then count snapshots (whose parsing may fail the whole call). -/
def Repository.verify (P : Params) (r : Repository) : Option VerifyResult :=
  let pack_paths := Store.list r.store packsDir
  let found := pack_paths.map afterLastSlash
  let errs := r.index.entries.foldl
    (fun es e => if decide (e.2.pack_id ∈ found) then es else es ++ [errMsg e.1 e.2.pack_id]) []
  match r.list_snapshots P with
  | none => none
  | some snaps => some ⟨pack_paths.length, r.index.entries.length, snaps.length, errs⟩

def Repository.blob_count (r : Repository) : Nat := r.index.len

/-! ## Concrete instantiations for witnesses

The theorems below abstract over the external crates through `Params` and
hypotheses.  Their witnesses need one concrete, executable instantiation:
an injective stand-in hash, a valid boundary chooser, an injective id
stream, and token-list codecs whose round-trip the witnesses check by
evaluation at their concrete values. -/

def encNatT (n : Nat) : Bytes := [n]

def decNatT : Bytes → Option (Nat × Bytes)
  | [] => none
  | n :: rest => some (n, rest)

def decCharT : Bytes → Option (Char × Bytes)
  | [] => none
  | n :: rest => some (Char.ofNat n, rest)

def encListT (f : α → Bytes) (xs : List α) : Bytes :=
  xs.length :: (xs.map f).flatten

def decListAuxT (f : Bytes → Option (α × Bytes)) : Nat → Bytes → Option (List α × Bytes)
  | 0, bs => some ([], bs)
  | k + 1, bs =>
    match f bs with
    | none => none
    | some (a, bs') => (decListAuxT f k bs').map (fun p => (a :: p.1, p.2))

def decListT (f : Bytes → Option (α × Bytes)) : Bytes → Option (List α × Bytes)
  | [] => none
  | n :: rest => decListAuxT f n rest

def encStrT (s : Str) : Bytes := encListT (fun c => [Char.toNat c]) s

def decStrT (bs : Bytes) : Option (Str × Bytes) := decListT decCharT bs

def encOptT (f : α → Bytes) : Option α → Bytes
  | none => [0]
  | some a => 1 :: f a

def decOptT (f : Bytes → Option (α × Bytes)) : Bytes → Option (Option α × Bytes)
  | [] => none
  | 0 :: rest => some (none, rest)
  | (_ + 1) :: rest => (f rest).map (fun p => (some p.1, p.2))

def encBytesT (bs : Bytes) : Bytes := encListT encNatT bs

def decBytesT (bs : Bytes) : Option (Bytes × Bytes) := decListT decNatT bs

def encBlobT (b : PackedBlob) : Bytes :=
  encBytesT b.hash ++ encNatT b.offset ++ encNatT b.length

def decBlobT (bs : Bytes) : Option (PackedBlob × Bytes) :=
  match decBytesT bs with
  | none => none
  | some (h, r1) =>
    match decNatT r1 with
    | none => none
    | some (off, r2) =>
      match decNatT r2 with
      | none => none
      | some (len, r3) => some (⟨h, off, len⟩, r3)

/-- Stand-in header encoder for witness instantiation of serde_json. -/
def mEncHeader (h : PackHeader) : Bytes :=
  encStrT h.id ++ encListT encBlobT h.blobs

/-- Stand-in header decoder, inverse of `mEncHeader` on its image. -/
def mDecHeader (bs : Bytes) : Option PackHeader :=
  match decStrT bs with
  | none => none
  | some (id, r1) =>
    match decListT decBlobT r1 with
    | none => none
    | some (blobs, _) => some ⟨id, blobs⟩

def encPairT (p : Str × Str) : Bytes := encStrT p.1 ++ encStrT p.2

def decPairT (bs : Bytes) : Option ((Str × Str) × Bytes) :=
  match decStrT bs with
  | none => none
  | some (a, r1) =>
    match decStrT r1 with
    | none => none
    | some (b, r2) => some ((a, b), r2)

def serviceCode : Service → Nat
  | .onedrive => 0
  | .exchange => 1
  | .sharepoint => 2
  | .teams => 3

def serviceOfCode : Nat → Option Service
  | 0 => some .onedrive
  | 1 => some .exchange
  | 2 => some .sharepoint
  | 3 => some .teams
  | _ => none

def nodeTypeCode : NodeType → Nat
  | .file => 0
  | .directory => 1
  | .mail => 2
  | .calendar => 3
  | .contact => 4
  | .message => 5

def nodeTypeOfCode : Nat → Option NodeType
  | 0 => some .file
  | 1 => some .directory
  | 2 => some .mail
  | 3 => some .calendar
  | 4 => some .contact
  | 5 => some .message
  | _ => none

def encRefT (c : ChunkRef) : Bytes :=
  encBytesT c.hash ++ encNatT c.length ++ encNatT c.offset

def decRefT (bs : Bytes) : Option (ChunkRef × Bytes) :=
  match decBytesT bs with
  | none => none
  | some (h, r1) =>
    match decNatT r1 with
    | none => none
    | some (len, r2) =>
      match decNatT r2 with
      | none => none
      | some (off, r3) => some (⟨h, len, off⟩, r3)

def encNodeT (n : TreeNode) : Bytes :=
  encStrT n.path ++ encNatT (nodeTypeCode n.node_type) ++ encNatT n.size ++
    encOptT encNatT n.modified ++ encListT encRefT n.chunks ++ encListT encPairT n.metadata

def decNodeT (bs : Bytes) : Option (TreeNode × Bytes) :=
  match decStrT bs with
  | none => none
  | some (path, r1) =>
    match decNatT r1 with
    | none => none
    | some (tc, r2) =>
      match nodeTypeOfCode tc with
      | none => none
      | some nt =>
        match decNatT r2 with
        | none => none
        | some (size, r3) =>
          match decOptT decNatT r3 with
          | none => none
          | some (mo, r4) =>
            match decListT decRefT r4 with
            | none => none
            | some (chunks, r5) =>
              match decListT decPairT r5 with
              | none => none
              | some (meta, r6) => some (⟨path, nt, size, mo, chunks, meta⟩, r6)

def encStatsT (s : BackupStats) : Bytes :=
  [s.total_items, s.new_items, s.unchanged_items, s.total_bytes, s.new_bytes,
    s.deduplicated_bytes, s.duration_secs]

def decStatsT : Bytes → Option (BackupStats × Bytes)
  | a :: b :: c :: d :: e :: f :: g :: rest => some (⟨a, b, c, d, e, f, g⟩, rest)
  | _ => none

/-- Stand-in snapshot encoder for witness instantiation of serde_json. -/
def mEncSnap (s : Snapshot) : Bytes :=
  encStrT s.id ++ encNatT s.timestamp ++ encStrT s.tenant ++
    encNatT (serviceCode s.service) ++ encOptT encStrT s.user ++
    encOptT encStrT s.parent ++ encListT encNodeT s.tree.nodes ++
    encListT encPairT s.delta_tokens ++ encStatsT s.stats

/-- Stand-in snapshot decoder, inverse of `mEncSnap` on its image. -/
def mDecSnap (bs : Bytes) : Option Snapshot :=
  match decStrT bs with
  | none => none
  | some (id, r1) =>
    match decNatT r1 with
    | none => none
    | some (ts, r2) =>
      match decStrT r2 with
      | none => none
      | some (tenant, r3) =>
        match decNatT r3 with
        | none => none
        | some (sc, r4) =>
          match serviceOfCode sc with
          | none => none
          | some service =>
            match decOptT decStrT r4 with
            | none => none
            | some (user, r5) =>
              match decOptT decStrT r5 with
              | none => none
              | some (parent, r6) =>
                match decListT decNodeT r6 with
                | none => none
                | some (nodes, r7) =>
                  match decListT decPairT r7 with
                  | none => none
                  | some (dt, r8) =>
                    match decStatsT r8 with
                    | none => none
                    | some (stats, _) =>
                      some ⟨id, ts, tenant, service, user, parent, ⟨nodes⟩, dt, stats⟩

/-- Concrete parameter pack used by the witnesses: the identity as an
injective stand-in hash, the boundary chooser that cuts at
`min(remaining, max_chunk)`, an id stream injective by length, and the
token-list codecs. -/
def P0 : Params where
  hashFn := fun b => b
  cutBig := fun d => min d.length MAX_CHUNK
  idGen := fun n => List.replicate n 'a'
  encHeader := mEncHeader
  decHeader := mDecHeader
  encIndex := fun _ => []
  encSnap := mEncSnap
  decSnap := mDecSnap

/-! ## Specification-side predicates -/

/-- The bytes `bs[off .. off + len]` (Rust slice notation), with the
clamping of `take`/`drop` where Rust would panic. -/
def sliceAt (bs : Bytes) (off len : Nat) : Bytes := (bs.take (off + len)).drop off

/-- What the fastcdc contract (spec 4.3) guarantees about a cut above the
minimum: the chosen first-chunk length is at least one byte and at most the
remainder. -/
def CutValid (cut : Bytes → Nat) : Prop :=
  ∀ d : Bytes, MIN_CHUNK < d.length → 1 ≤ cut d ∧ cut d ≤ d.length

/-- The sliceable chunk really sits where its hash says: spec 3's index
invariant for an opened repository — every index entry points at an
existing pack whose bytes at `(offset, length)` are in bounds (also as a
`u32` sum) and hash back to the entry's key. -/
def RepoInv (P : Params) (r : Repository) : Prop :=
  ∀ e ∈ r.index.entries,
    ∃ pd, Store.read r.store (packsKey e.2.pack_id) = some pd ∧
      e.2.offset + e.2.length ≤ pd.length ∧
      e.2.offset + e.2.length < U32 ∧
      P.hashFn (sliceAt pd e.2.offset e.2.length) = e.1

/-- The uuid stream is collision-free and the ids still to be drawn are
unused: no pack object and no index entry refers to them (spec: "a fresh
128-bit random id", collisions negligible). -/
def FreshIds (P : Params) (r : Repository) : Prop :=
  (∀ n m : Nat, P.idGen n = P.idGen m → n = m) ∧
  (∀ n, r.ctr ≤ n → Store.read r.store (packsKey (P.idGen n)) = none) ∧
  (∀ n, r.ctr ≤ n → ∀ e ∈ r.index.entries, e.2.pack_id ≠ P.idGen n)

/-- The in-flight pack builder is consistent with the repository: its
payload is below the `u32` horizon, its descriptors describe its payload,
and its id is an already-drawn but still-unused uuid. -/
def BuilderOk (P : Params) (r : Repository) (b : PackBuilder) : Prop :=
  b.data.length < U32 ∧
  (∀ bl ∈ b.blobs,
    bl.offset + bl.length ≤ b.data.length ∧
    P.hashFn (sliceAt b.data bl.offset bl.length) = bl.hash) ∧
  (∃ k, k < r.ctr ∧ b.id = P.idGen k) ∧
  Store.read r.store (packsKey b.id) = none ∧
  (∀ e ∈ r.index.entries, e.2.pack_id ≠ b.id)

/-- The descriptor list `PackBuilder::add` accumulates when fed the given
chunks starting from payload size `off`. -/
def buildBlobs : Nat → List Chunk → List PackedBlob
  | _, [] => []
  | off, c :: cs => ⟨c.hash, off % U32, c.data.length % U32⟩ :: buildBlobs (off + c.data.length) cs

/-- Cumulative offsets: `off, off + l₁, off + l₁ + l₂, …` for lengths
`l₁, l₂, …`. -/
def cumLens : Nat → List Nat → List Nat
  | _, [] => []
  | off, l :: ls => off :: cumLens (off + l) ls

/-! ## Concrete fixtures for witnesses and counterexamples -/

/-- A freshly opened repository over an empty store. -/
def r0 : Repository := ⟨Index.new, [], 0⟩

/-- A small snapshot with an 8-character id. -/
def S8 : Snapshot :=
  ⟨"abcdefgh".toList, 0, [], .onedrive, none, none, ⟨[]⟩, [], ⟨0, 0, 0, 0, 0, 0, 0⟩⟩

/-- A repository whose index holds one entry backed by an existing pack
`x` and one entry pointing at the missing pack `ghost`. -/
def rC7 : Repository :=
  ⟨⟨[([1], ⟨['x'], 0, 0⟩), ([2], ⟨"ghost".toList, 0, 0⟩)]⟩,
    Store.write [] (packsKey ['x']) [], 0⟩

/-- The `verify` outcome on `rC7`. -/
def vC7 : VerifyResult := ⟨1, 2, 0, [errMsg [2] "ghost".toList]⟩

/-- A one-byte chunk for the failing-flush scenario. -/
def cA : Chunk := ⟨[7], 0, 1, [7]⟩

/-- A chunk whose payload is exactly 2^32 bytes: the smallest shape on
which the `as u32` casts in `PackBuilder::add` truncate. -/
def cBig : Chunk := ⟨[0], 0, 4294967296, List.replicate 4294967296 0⟩

/-- Two small chunks with distinct hashes for the pack round-trip. -/
def c5a : Chunk := ⟨[1], 0, 1, [10]⟩

def c5b : Chunk := ⟨[2], 0, 1, [20]⟩

/-- The loop phase of `store_data` (chunking done, leftover flush still
pending): a name for the intermediate state the proofs reason about. -/
def storePass (P : Params) (r : Repository) (data : Bytes) :
    List ChunkRef × Repository × PackBuilder :=
  Repository.storeLoop P (Chunker.chunk P data) { r with ctr := r.ctr + 1 }
    (PackBuilder.new (P.idGen r.ctr)) []

/-! ## Store and key lemmas -/

theorem Store.write_cons (e : Str × Bytes) (s : Store) (k : Str) (v : Bytes) :
    Store.write (e :: s) k v = if e.1 = k then Store.write s k v else e :: Store.write s k v := by
  by_cases h : e.1 = k
  · simp [Store.write, List.filter_cons, h]
  · simp [Store.write, List.filter_cons, h]

theorem Store.read_write_self (s : Store) (k : Str) (v : Bytes) :
    Store.read (Store.write s k v) k = some v := by
  induction s with
  | nil => simp [Store.read, Store.write]
  | cons e s ih =>
    rw [Store.write_cons]
    by_cases h : e.1 = k
    · simpa [h] using ih
    · simpa [Store.read, h] using ih

theorem Store.read_write_ne (s : Store) (k : Str) (v : Bytes) (k' : Str) (h : k' ≠ k) :
    Store.read (Store.write s k v) k' = Store.read s k' := by
  induction s with
  | nil =>
    have : ¬ k = k' := fun he => h he.symm
    simp [Store.read, Store.write, this]
  | cons e s ih =>
    rw [Store.write_cons]
    by_cases he : e.1 = k
    · rw [if_pos he, ih]
      have he' : ¬ e.1 = k' := by rw [he]; exact fun x => h x.symm
      simp [Store.read, he']
    · rw [if_neg he]
      by_cases he' : e.1 = k'
      · simp [Store.read, he', ih]
      · simp [Store.read, he', ih]

theorem packsKey_inj {p q : Str} (h : packsKey p = packsKey q) : p = q :=
  List.append_cancel_left h

theorem packsKey_ne_indexKey (p : Str) : packsKey p ≠ indexKey := by
  intro h
  have h1 : (packsKey p).head? = some 'p' := rfl
  rw [h] at h1
  have h2 : indexKey.head? = some 'i' := rfl
  rw [h2] at h1
  exact absurd h1 (by decide)

theorem read_flushStore_packs (s : Store) (pid : Str) (v iv : Bytes) (q : Str) :
    Store.read ((Store.write s (packsKey pid) v).write indexKey iv) (packsKey q) =
      Store.read (Store.write s (packsKey pid) v) (packsKey q) :=
  Store.read_write_ne _ _ _ _ (packsKey_ne_indexKey q)

/-! ## Slicing lemmas -/

theorem sliceAt_prefix (l₁ l₂ : Bytes) (off len : Nat) (h : off + len ≤ l₁.length) :
    sliceAt (l₁ ++ l₂) off len = sliceAt l₁ off len := by
  unfold sliceAt
  rw [List.take_append_of_le_length h]

theorem sliceAt_middle (l₁ l₂ l₃ : Bytes) :
    sliceAt (l₁ ++ l₂ ++ l₃) l₁.length l₂.length = l₂ := by
  unfold sliceAt
  rw [List.append_assoc, List.take_append_eq_append_take,
    List.take_of_length_le (by omega), List.take_append_of_le_length (by simp),
    Nat.add_sub_cancel_left, List.take_length, List.drop_left]

theorem sliceAt_append_self (l₁ l₂ : Bytes) :
    sliceAt (l₁ ++ l₂) l₁.length l₂.length = l₂ := by
  have := sliceAt_middle l₁ l₂ []
  simpa using this

theorem toLE4_length (n : Nat) : (toLE4 n).length = 4 := rfl

theorem fromLE4_toLE4 (n : Nat) : fromLE4 (toLE4 n) = n % U32 := by
  show n % 256 + 256 * (n / 256 % 256) + 65536 * (n / 65536 % 256) +
    16777216 * (n / 16777216 % 256) = n % 4294967296
  omega

/-! ## Sorting lemmas -/

theorem mem_insertStr {a x : Str} {l : List Str} : a ∈ insertStr x l ↔ a = x ∨ a ∈ l := by
  induction l with
  | nil => simp [insertStr]
  | cons y ys ih =>
    by_cases h : strLeB x y
    · simp [insertStr, h]
    · simp only [insertStr, if_neg h, List.mem_cons, ih]
      tauto

theorem mem_sortStrs {a : Str} {l : List Str} : a ∈ sortStrs l ↔ a ∈ l := by
  induction l with
  | nil => simp [sortStrs]
  | cons x xs ih => simp [sortStrs, mem_insertStr, ih]

theorem length_insertSnap (x : Snapshot) (l : List Snapshot) :
    (insertSnap x l).length = l.length + 1 := by
  induction l with
  | nil => rfl
  | cons y ys ih =>
    by_cases h : y.timestamp ≤ x.timestamp
    · simp [insertSnap, h]
    · simp [insertSnap, h, ih]

theorem length_sortSnapsDesc (l : List Snapshot) : (sortSnapsDesc l).length = l.length := by
  induction l with
  | nil => rfl
  | cons x xs ih => simp [sortSnapsDesc, length_insertSnap, ih]

/-! ## Chunker lemmas -/

theorem cdcSplit_nil (cut : Bytes → Nat) (fuel : Nat) : cdcSplit cut fuel [] = [] := by
  cases fuel <;> rfl

theorem cutLen_pos_le (cut : Bytes → Nat) (hcut : CutValid cut) (d : Bytes) (hd : d ≠ []) :
    1 ≤ cutLen cut d ∧ cutLen cut d ≤ d.length := by
  unfold cutLen
  by_cases h : d.length ≤ MIN_CHUNK
  · have : 0 < d.length := List.length_pos.2 hd
    simp [h]
    omega
  · have := hcut d (by omega)
    simpa [h] using this

theorem cdcSplit_cons (cut : Bytes → Nat) (n : Nat) (c : Nat) (rest : Bytes) :
    cdcSplit cut (n + 1) (c :: rest) =
      (c :: rest).take (cutLen cut (c :: rest)) ::
        cdcSplit cut n ((c :: rest).drop (cutLen cut (c :: rest))) := rfl

theorem cdcSplit_flatten (cut : Bytes → Nat) (hcut : CutValid cut) :
    ∀ fuel d, d.length ≤ fuel → (cdcSplit cut fuel d).flatten = d := by
  intro fuel
  induction fuel with
  | zero =>
    intro d h
    have : d = [] := List.eq_nil_of_length_eq_zero (by omega)
    simp [this, cdcSplit]
  | succ n ih =>
    intro d h
    cases d with
    | nil => simp [cdcSplit]
    | cons c rest =>
      have hl := cutLen_pos_le cut hcut (c :: rest) (by simp)
      rw [cdcSplit_cons, List.flatten_cons, ih _ (by simp at h ⊢; omega),
        List.take_append_drop]

theorem chunksOfPieces_map_data (h : Bytes → Bytes) :
    ∀ ps off, (chunksOfPieces h off ps).map Chunk.data = ps := by
  intro ps
  induction ps with
  | nil => intro off; rfl
  | cons p ps ih => intro off; simp [chunksOfPieces, ih]

theorem chunksOfPieces_map_length (h : Bytes → Bytes) :
    ∀ ps off, (chunksOfPieces h off ps).map Chunk.length = ps.map List.length := by
  intro ps
  induction ps with
  | nil => intro off; rfl
  | cons p ps ih => intro off; simp [chunksOfPieces, ih]

theorem chunksOfPieces_shape (h : Bytes → Bytes) :
    ∀ ps off c, c ∈ chunksOfPieces h off ps →
      c.hash = h c.data ∧ c.length = c.data.length := by
  intro ps
  induction ps with
  | nil => intro off c hc; simp [chunksOfPieces] at hc
  | cons p ps ih =>
    intro off c hc
    rcases List.mem_cons.1 hc with rfl | hc
    · exact ⟨rfl, rfl⟩
    · exact ih _ _ hc

/-- The concrete boundary chooser of `P0` satisfies the fastcdc contract. -/
theorem P0_cutValid : CutValid P0.cutBig := by
  intro d h
  constructor
  · have : (1 : Nat) ≤ MAX_CHUNK := by decide
    have : 1 ≤ d.length := by
      have : MIN_CHUNK < d.length := h
      unfold MIN_CHUNK at this
      omega
    simp [P0]
    constructor
    · omega
    · decide
  · simp [P0]

/-- Coverage of the chunker: the chunk data concatenated in order
reproduce the input and the chunk lengths sum to its length, given the
fastcdc cut contract. -/
theorem chunk_covers (P : Params) (data : Bytes) (hcut : CutValid P.cutBig) :
    ((Chunker.chunk P data).map Chunk.data).flatten = data ∧
    ((Chunker.chunk P data).map Chunk.length).sum = data.length := by
  have h1 : (cdcSplit P.cutBig data.length data).flatten = data :=
    cdcSplit_flatten P.cutBig hcut _ _ le_rfl
  constructor
  · rw [Chunker.chunk, chunksOfPieces_map_data]
    exact h1
  · rw [Chunker.chunk, chunksOfPieces_map_length, ← List.length_flatten, h1]

/-- Claim C3: for every byte sequence `b`, `Chunker::chunk(b)` returns an
ordered sequence of chunks covering `b` exactly once: the chunk data
concatenated in order reproduce `b` and the chunk lengths sum to the
length of `b`.  The fastcdc boundary chooser is abstract; the hypothesis
is its contract (each cut takes between 1 byte and the whole remainder). -/
theorem C3_chunk_covers (P : Params) (data : Bytes) (hcut : CutValid P.cutBig) :
    ((Chunker.chunk P data).map Chunk.data).flatten = data ∧
    ((Chunker.chunk P data).map Chunk.length).sum = data.length :=
  chunk_covers P data hcut

/-- Witness for C3 at a concrete input. -/
theorem C3_chunk_covers_witness :
    ((Chunker.chunk P0 [1, 2, 3]).map Chunk.data).flatten = [1, 2, 3] ∧
    ((Chunker.chunk P0 [1, 2, 3]).map Chunk.length).sum = 3 :=
  C3_chunk_covers P0 [1, 2, 3] P0_cutValid

/-- Claim C6, counterexample: on the empty input the chunker emits no
chunk at all (the fastcdc iterator stops as soon as nothing remains), not
one chunk of length 0 as the claim's "including the empty sequence"
reading would require. -/
theorem C6_counterexample :
    Chunker.chunk P0 [] = [] ∧ (Chunker.chunk P0 []).length ≠ 1 := by
  constructor
  · rfl
  · decide

/-- Claim C6 as amended: every NONEMPTY input shorter than `min_chunk`
yields exactly one chunk, whose length (and data) is the whole input; the
empty input yields no chunks. -/
theorem C6_submin_single (P : Params) (d : Bytes) (h0 : d ≠ []) (h1 : d.length < MIN_CHUNK) :
    Chunker.chunk P d = [⟨P.hashFn d, 0, d.length, d⟩] := by
  cases d with
  | nil => exact absurd rfl h0
  | cons c rest =>
    have hle : (c :: rest).length ≤ MIN_CHUNK := le_of_lt h1
    show chunksOfPieces P.hashFn 0
      (cdcSplit P.cutBig (rest.length + 1) (c :: rest)) = _
    show chunksOfPieces P.hashFn 0
      ((c :: rest).take (cutLen P.cutBig (c :: rest)) ::
        cdcSplit P.cutBig rest.length ((c :: rest).drop (cutLen P.cutBig (c :: rest)))) = _
    rw [cutLen, if_pos hle, List.take_length, List.drop_length, cdcSplit_nil]
    rfl

/-- Witness for the amended C6 at a concrete one-byte input. -/
theorem C6_submin_single_witness :
    Chunker.chunk P0 [9] = [⟨[9], 0, 1, [9]⟩] :=
  C6_submin_single P0 [9] (by simp) (by decide)

/-! ## Pack builder lemmas -/

theorem buildBlobs_nil (off : Nat) : buildBlobs off [] = [] := rfl

theorem buildBlobs_cons (off : Nat) (c : Chunk) (cs : List Chunk) :
    buildBlobs off (c :: cs) =
      ⟨c.hash, off % U32, c.data.length % U32⟩ :: buildBlobs (off + c.data.length) cs := rfl

theorem foldl_add_spec :
    ∀ (cs : List Chunk) (b : PackBuilder),
      (cs.foldl PackBuilder.add b).id = b.id ∧
      (cs.foldl PackBuilder.add b).data = b.data ++ (cs.map Chunk.data).flatten ∧
      (cs.foldl PackBuilder.add b).blobs = b.blobs ++ buildBlobs b.data.length cs := by
  intro cs
  induction cs with
  | nil => intro b; simp [buildBlobs]
  | cons c cs ih =>
    intro b
    have h := ih (b.add c)
    refine ⟨?_, ?_, ?_⟩
    · rw [List.foldl_cons, h.1]; rfl
    · rw [List.foldl_cons, h.2.1]; simp [PackBuilder.add]
    · rw [List.foldl_cons, h.2.2]
      simp [PackBuilder.add, buildBlobs_cons, List.length_append]

theorem buildBlobs_map_hash :
    ∀ (cs : List Chunk) (off : Nat),
      (buildBlobs off cs).map PackedBlob.hash = cs.map Chunk.hash := by
  intro cs
  induction cs with
  | nil => intro off; rfl
  | cons c cs ih => intro off; simp [buildBlobs_cons, ih]

theorem cumLens_cons (off l : Nat) (ls : List Nat) :
    cumLens off (l :: ls) = off :: cumLens (off + l) ls := rfl

theorem buildBlobs_offsets :
    ∀ (cs : List Chunk) (off : Nat),
      off + (cs.map (fun c => c.data.length)).sum < U32 →
      (buildBlobs off cs).map PackedBlob.offset = cumLens off (cs.map (fun c => c.data.length)) := by
  intro cs
  induction cs with
  | nil => intro off _; rfl
  | cons c cs ih =>
    intro off h
    simp only [List.map_cons, List.sum_cons] at h
    rw [buildBlobs_cons, List.map_cons, List.map_cons, cumLens_cons, ih _ (by omega),
      Nat.mod_eq_of_lt (by omega)]

theorem buildBlobs_bounds :
    ∀ (cs : List Chunk) (off : Nat),
      off + (cs.map (fun c => c.data.length)).sum < U32 →
      ∀ bl ∈ buildBlobs off cs,
        bl.offset + bl.length ≤ off + (cs.map (fun c => c.data.length)).sum := by
  intro cs
  induction cs with
  | nil => intro off _ bl hbl; simp [buildBlobs] at hbl
  | cons c cs ih =>
    intro off h bl hbl
    simp only [List.map_cons, List.sum_cons] at h ⊢
    rw [buildBlobs_cons] at hbl
    rcases List.mem_cons.1 hbl with rfl | hbl
    · simp only [Nat.mod_eq_of_lt (show off < U32 by omega),
        Nat.mod_eq_of_lt (show c.data.length < U32 by omega)]
      omega
    · have := ih (off + c.data.length) (by omega) bl hbl
      omega

theorem finalize_header (enc : PackHeader → Bytes) (b : PackBuilder) :
    (b.finalize enc).header = ⟨b.id, b.blobs⟩ := rfl

theorem finalize_data (enc : PackHeader → Bytes) (b : PackBuilder) :
    (b.finalize enc).data =
      b.data ++ enc ⟨b.id, b.blobs⟩ ++ toLE4 ((enc ⟨b.id, b.blobs⟩).length % U32) := rfl

theorem finalize_data_length (enc : PackHeader → Bytes) (b : PackBuilder) :
    (b.finalize enc).data.length = b.data.length + (enc ⟨b.id, b.blobs⟩).length + 4 := by
  rw [finalize_data]
  simp [toLE4]
  omega

/-- Claim C10, counterexample: after `add`ing a 2^32-byte chunk twice, the
second recorded offset is `2^32 % 2^32 = 0` (the `as u32` cast truncates),
not the cumulative length 2^32 of the previously added chunks that the
claim asserts. -/
theorem C10_counterexample :
    (((PackBuilder.new []).add cBig).add cBig).blobs.map PackedBlob.offset = [0, 0] ∧
    cumLens 0 ([cBig, cBig].map (fun c => c.data.length)) = [0, 4294967296] ∧
    (0 : Nat) ≠ 4294967296 := by
  have hlen : cBig.data.length = 4294967296 := by
    simp only [cBig, List.length_replicate]
  refine ⟨?_, ?_, by decide⟩
  · have hb := (foldl_add_spec [cBig, cBig] (PackBuilder.new [])).2.2
    have hfold : (((PackBuilder.new []).add cBig).add cBig).blobs
        = ([cBig, cBig].foldl PackBuilder.add (PackBuilder.new [])).blobs := rfl
    have h0 : (PackBuilder.new ([] : Str)).blobs = [] := rfl
    have h1 : List.length (PackBuilder.new ([] : Str)).data = 0 := rfl
    rw [hfold, hb, h0, h1, List.nil_append, buildBlobs_cons, buildBlobs_cons, buildBlobs_nil,
      hlen, List.map_cons, List.map_cons, List.map_nil]
    decide
  · have hm : [cBig, cBig].map (fun c => c.data.length) = [cBig.data.length, cBig.data.length] := rfl
    rw [hm, hlen]
    decide

/-- Claim C10 as amended: for every pack built by `add` calls and
`finalize` WHOSE TOTAL PAYLOAD STAYS BELOW 2^32 BYTES (as the 16 MiB flush
threshold guarantees for packs the repository builds), every manifest
descriptor satisfies `offset + length ≤ payload length`, offsets are the
cumulative lengths of the previously added chunks (first 0), and any
descriptor `extract_blob` finds stays inside the pack bytes, its `u32`
index addition not wrapping. -/
theorem C10_descriptor_bounds (P : Params) (id : Str) (cs : List Chunk)
    (hsize : (cs.map (fun c => c.data.length)).sum < U32) :
    ((cs.foldl PackBuilder.add (PackBuilder.new id)).blobs.map PackedBlob.offset
        = cumLens 0 (cs.map (fun c => c.data.length))) ∧
    (∀ bl ∈ (cs.foldl PackBuilder.add (PackBuilder.new id)).blobs,
        bl.offset + bl.length ≤ (cs.foldl PackBuilder.add (PackBuilder.new id)).data.length) ∧
    (∀ h bl,
        (((cs.foldl PackBuilder.add (PackBuilder.new id)).finalize P.encHeader).header.blobs.find?
            (fun x => decide (x.hash = h))) = some bl →
        (bl.offset + bl.length) % U32 = bl.offset + bl.length ∧
        bl.offset + bl.length ≤
          ((cs.foldl PackBuilder.add (PackBuilder.new id)).finalize P.encHeader).data.length) := by
  have hb := foldl_add_spec cs (PackBuilder.new id)
  have hblobs : (cs.foldl PackBuilder.add (PackBuilder.new id)).blobs = buildBlobs 0 cs := by
    simpa [PackBuilder.new] using hb.2.2
  have hdata : (cs.foldl PackBuilder.add (PackBuilder.new id)).data = (cs.map Chunk.data).flatten := by
    simpa [PackBuilder.new] using hb.2.1
  have hdlen : (cs.foldl PackBuilder.add (PackBuilder.new id)).data.length
      = (cs.map (fun c => c.data.length)).sum := by
    rw [hdata, List.length_flatten, List.map_map]
    rfl
  have hbound : ∀ bl ∈ buildBlobs 0 cs,
      bl.offset + bl.length ≤ (cs.map (fun c => c.data.length)).sum := by
    intro bl hbl
    simpa using buildBlobs_bounds cs 0 (by omega) bl hbl
  refine ⟨?_, ?_, ?_⟩
  · rw [hblobs]
    exact buildBlobs_offsets cs 0 (by omega)
  · intro bl hbl
    rw [hblobs] at hbl
    rw [hdlen]
    exact hbound bl hbl
  · intro h bl hfind
    have hmem : bl ∈ buildBlobs 0 cs := by
      rw [← hblobs]
      exact List.mem_of_find?_eq_some hfind
    have h1 := hbound bl hmem
    refine ⟨Nat.mod_eq_of_lt (by omega), ?_⟩
    rw [finalize_data_length, hdlen]
    omega

/-- Witness for the amended C10 at two concrete chunks. -/
theorem C10_descriptor_bounds_witness :
    ([c5a, c5b].map (fun c => c.data.length)).sum < U32 ∧
    ([c5a, c5b].foldl PackBuilder.add (PackBuilder.new ['q'])).blobs.map PackedBlob.offset
      = cumLens 0 ([c5a, c5b].map (fun c => c.data.length)) :=
  ⟨by decide, (C10_descriptor_bounds P0 ['q'] [c5a, c5b] (by decide)).1⟩

/-! ## Pack parse round-trip (C5) -/

theorem parse_finalize (enc : PackHeader → Bytes) (dec : Bytes → Option PackHeader)
    (b : PackBuilder)
    (hlen : (enc ⟨b.id, b.blobs⟩).length < U32)
    (hdec : dec (enc ⟨b.id, b.blobs⟩) = some ⟨b.id, b.blobs⟩) :
    PackFile.parse dec (b.finalize enc).data = some (b.finalize enc) := by
  have hL : (b.finalize enc).data.length = b.data.length + (enc ⟨b.id, b.blobs⟩).length + 4 :=
    finalize_data_length enc b
  rw [PackFile.parse, finalize_data]
  simp only [List.length_append, toLE4_length]
  rw [if_neg (by omega)]
  have h2 : b.data.length + (enc ⟨b.id, b.blobs⟩).length + 4 - 4
      = (b.data ++ enc ⟨b.id, b.blobs⟩).length := by
    rw [List.length_append]
    omega
  rw [h2, List.drop_left, fromLE4_toLE4, Nat.mod_mod_of_dvd _ dvd_rfl,
    Nat.mod_eq_of_lt hlen]
  rw [if_neg (by omega)]
  have h3 : (b.data ++ enc ⟨b.id, b.blobs⟩).length - (enc ⟨b.id, b.blobs⟩).length
      = b.data.length := by
    simp
  have h4 : ((b.data ++ enc ⟨b.id, b.blobs⟩) ++
        toLE4 ((enc ⟨b.id, b.blobs⟩).length)).take
      ((b.data ++ enc ⟨b.id, b.blobs⟩).length) = b.data ++ enc ⟨b.id, b.blobs⟩ := by
    rw [List.take_append_of_le_length le_rfl, List.take_length]
  rw [h3, h4, List.drop_left, hdec]
  simp [PackBuilder.finalize, Nat.mod_eq_of_lt hlen]

/-- The central extraction lemma: inside the full pack bytes
`pre ++ payload ++ trailing`, the descriptor that `find?` locates for a
chunk whose hash is unique in the list slices back exactly that chunk's
data. -/
theorem extract_aux (full trailing : Bytes) :
    ∀ (cs : List Chunk) (pre : Bytes),
      full = pre ++ (cs.map Chunk.data).flatten ++ trailing →
      pre.length + (cs.map (fun c => c.data.length)).sum < U32 →
      (cs.map Chunk.hash).Nodup →
      ∀ c ∈ cs,
        ∃ bl, (buildBlobs pre.length cs).find? (fun x => decide (x.hash = c.hash)) = some bl ∧
          (full.take ((bl.offset + bl.length) % U32)).drop bl.offset = c.data := by
  intro cs
  induction cs with
  | nil => intro pre _ _ _ c hc; simp at hc
  | cons c0 rest ih =>
    intro pre hfull hsize hnodup c hc
    simp only [List.map_cons, List.sum_cons] at hsize
    rcases List.mem_cons.1 hc with rfl | hc
    · have hoff : pre.length % U32 = pre.length := Nat.mod_eq_of_lt (by omega)
      have hlen : c.data.length % U32 = c.data.length := Nat.mod_eq_of_lt (by omega)
      have hmod : (pre.length + c.data.length) % U32 = pre.length + c.data.length :=
        Nat.mod_eq_of_lt (by omega)
      refine ⟨⟨c.hash, pre.length % U32, c.data.length % U32⟩, ?_, ?_⟩
      · rw [buildBlobs_cons]
        exact List.find?_cons_of_pos _ (by simp)
      · show (full.take ((pre.length % U32 + c.data.length % U32) % U32)).drop (pre.length % U32)
          = c.data
        rw [hoff, hlen, hmod]
        have hshape : full = pre ++ c.data ++ ((rest.map Chunk.data).flatten ++ trailing) := by
          rw [hfull]
          simp [List.append_assoc]
        rw [hshape]
        exact sliceAt_middle pre c.data _
    · have hnd := List.nodup_cons.1 hnodup
      have hne : ¬ (c0.hash = c.hash) := by
        intro he
        exact hnd.1 (he ▸ List.mem_map_of_mem Chunk.hash hc)
      refine (ih (pre ++ c0.data) ?_ ?_ hnd.2 c hc).imp ?_
      · rw [hfull]
        simp [List.append_assoc]
      · simp only [List.length_append]
        omega
      · intro bl hbl
        rw [buildBlobs_cons]
        refine ⟨?_, hbl.2⟩
        rw [List.find?_cons_of_neg _ (by simpa using hne)]
        rw [← List.length_append pre c0.data]
        exact hbl.1

/-- Claim C5: for every pack built by adding chunks with pairwise-distinct
hashes and then `finalize()`, `PackFile::parse` on the emitted bytes
succeeds and returns the pack, `extract_blob` on each added chunk's hash
returns exactly that chunk's bytes, and `extract_blob` on any hash not
added returns None.  Hypotheses: the serde encoder/decoder round-trips on
this header, the encoded header is below the `u32` horizon, and the
payload stays below 2^32 bytes (the `as u32` casts in `add` are then
exact). -/
theorem C5_pack_parse_roundtrip (P : Params) (id : Str) (cs : List Chunk)
    (hnodup : (cs.map Chunk.hash).Nodup)
    (hsize : (cs.map (fun c => c.data.length)).sum < U32)
    (hlen : (P.encHeader ((cs.foldl PackBuilder.add (PackBuilder.new id)).finalize P.encHeader).header).length < U32)
    (hdec : P.decHeader (P.encHeader ((cs.foldl PackBuilder.add (PackBuilder.new id)).finalize P.encHeader).header)
      = some ((cs.foldl PackBuilder.add (PackBuilder.new id)).finalize P.encHeader).header) :
    PackFile.parse P.decHeader ((cs.foldl PackBuilder.add (PackBuilder.new id)).finalize P.encHeader).data
      = some ((cs.foldl PackBuilder.add (PackBuilder.new id)).finalize P.encHeader) ∧
    (∀ c ∈ cs,
      ((cs.foldl PackBuilder.add (PackBuilder.new id)).finalize P.encHeader).extract_blob c.hash
        = some c.data) ∧
    (∀ h, h ∉ cs.map Chunk.hash →
      ((cs.foldl PackBuilder.add (PackBuilder.new id)).finalize P.encHeader).extract_blob h
        = none) := by
  have hb := foldl_add_spec cs (PackBuilder.new id)
  have hblobs : (cs.foldl PackBuilder.add (PackBuilder.new id)).blobs = buildBlobs 0 cs := by
    simpa [PackBuilder.new] using hb.2.2
  have hdata : (cs.foldl PackBuilder.add (PackBuilder.new id)).data
      = (cs.map Chunk.data).flatten := by
    simpa [PackBuilder.new] using hb.2.1
  refine ⟨?_, ?_, ?_⟩
  · exact parse_finalize P.encHeader P.decHeader _ hlen (by
      rw [finalize_header] at hdec
      exact hdec)
  · intro c hc
    have hfull : ((cs.foldl PackBuilder.add (PackBuilder.new id)).finalize P.encHeader).data
        = [] ++ (cs.map Chunk.data).flatten ++
          (P.encHeader ((cs.foldl PackBuilder.add (PackBuilder.new id)).finalize P.encHeader).header ++
            toLE4 ((P.encHeader ((cs.foldl PackBuilder.add (PackBuilder.new id)).finalize P.encHeader).header).length % U32)) := by
      rw [finalize_data, hdata]
      simp only [finalize_header]
      simp [List.append_assoc]
    obtain ⟨bl, hfind, hslice⟩ := extract_aux _ _ cs [] hfull (by simpa using hsize) hnodup c hc
    simp only [List.length_nil] at hfind
    rw [PackFile.extract_blob]
    simp only [finalize_header]
    rw [hblobs, hfind]
    simpa using hslice
  · intro h hh
    rw [PackFile.extract_blob]
    simp only [finalize_header]
    rw [hblobs]
    have hnone : (buildBlobs 0 cs).find? (fun x => decide (x.hash = h)) = none := by
      apply List.find?_eq_none.2
      intro bl hbl
      have hblm : bl.hash ∈ cs.map Chunk.hash := by
        rw [← buildBlobs_map_hash cs 0]
        exact List.mem_map_of_mem PackedBlob.hash hbl
      simp only [decide_eq_true_eq]
      intro he
      exact hh (he ▸ hblm)
    rw [hnone]
    rfl

/-! ## Index membership lemmas -/

theorem Index.contains_iff (i : Index) (q : Bytes) :
    i.contains q = true ↔ ∃ x ∈ i.entries, x.1 = q := by
  unfold Index.contains
  rw [List.find?_isSome]
  simp

theorem Index.contains_add_self (i : Index) (h : Bytes) (pid : Str) (off len : Nat) :
    (i.add h pid off len).contains h = true := by
  rw [Index.contains_iff]
  exact ⟨(h, ⟨pid, off, len⟩), List.mem_append_right _ (List.mem_singleton.2 rfl), rfl⟩

theorem Index.contains_add_mono (i : Index) (h : Bytes) (pid : Str) (off len : Nat)
    (q : Bytes) (hq : i.contains q = true) : (i.add h pid off len).contains q = true := by
  by_cases hqh : q = h
  · rw [hqh]
    exact Index.contains_add_self i h pid off len
  · rw [Index.contains_iff] at hq ⊢
    obtain ⟨x, hx, hx1⟩ := hq
    exact ⟨x, List.mem_append_left _ (List.mem_filter.2 ⟨hx, by simp [hx1, hqh]⟩), hx1⟩

theorem contains_foldl_add (pid : Str) :
    ∀ (blobs : List PackedBlob) (i : Index) (q : Bytes),
      (i.contains q = true ∨ q ∈ blobs.map PackedBlob.hash) →
      (blobs.foldl (fun j bl => j.add bl.hash pid bl.offset bl.length) i).contains q = true := by
  intro blobs
  induction blobs with
  | nil =>
    intro i q h
    rcases h with h | h
    · exact h
    · simp at h
  | cons bl blobs ih =>
    intro i q h
    rw [List.foldl_cons]
    apply ih
    rcases h with h | h
    · exact Or.inl (Index.contains_add_mono _ _ _ _ _ _ h)
    · rcases List.mem_cons.1 (show q ∈ bl.hash :: blobs.map PackedBlob.hash by simpa using h)
        with rfl | h
      · exact Or.inl (Index.contains_add_self i bl.hash pid bl.offset bl.length)
      · exact Or.inr h

/-- Witness for C5 at two concrete chunks. -/
theorem C5_pack_parse_roundtrip_witness :
    PackFile.parse P0.decHeader
        (([c5a, c5b].foldl PackBuilder.add (PackBuilder.new ['q'])).finalize P0.encHeader).data
      = some (([c5a, c5b].foldl PackBuilder.add (PackBuilder.new ['q'])).finalize P0.encHeader) ∧
    (([c5a, c5b].foldl PackBuilder.add (PackBuilder.new ['q'])).finalize P0.encHeader).extract_blob [1]
      = some [10] ∧
    (([c5a, c5b].foldl PackBuilder.add (PackBuilder.new ['q'])).finalize P0.encHeader).extract_blob [9]
      = none :=
  ⟨(C5_pack_parse_roundtrip P0 ['q'] [c5a, c5b] (by decide) (by decide) (by decide) (by decide)).1,
    (C5_pack_parse_roundtrip P0 ['q'] [c5a, c5b] (by decide) (by decide) (by decide) (by decide)).2.1
      c5a (by simp),
    (C5_pack_parse_roundtrip P0 ['q'] [c5a, c5b] (by decide) (by decide) (by decide) (by decide)).2.2
      [9] (by decide)⟩

/-! ## Store-loop lemmas -/

theorem add_blobs (b : PackBuilder) (c : Chunk) :
    (b.add c).blobs = b.blobs ++ [⟨c.hash, b.data.length % U32, c.data.length % U32⟩] := rfl

theorem flush_pack_index (P : Params) (r : Repository) (b : PackBuilder) :
    (r.flush_pack P b).index
      = b.blobs.foldl (fun i bl => i.add bl.hash b.id bl.offset bl.length) r.index := rfl

theorem flush_pack_ctr (P : Params) (r : Repository) (b : PackBuilder) :
    (r.flush_pack P b).ctr = r.ctr := rfl

theorem flush_pack_store (P : Params) (r : Repository) (b : PackBuilder) :
    (r.flush_pack P b).store
      = (Store.write r.store (packsKey b.id) (b.finalize P.encHeader).data).write indexKey
          (P.encIndex (r.flush_pack P b).index) := rfl

theorem flush_pack_contains (P : Params) (r : Repository) (b : PackBuilder) (q : Bytes)
    (h : r.index.contains q = true ∨ q ∈ b.blobs.map PackedBlob.hash) :
    (r.flush_pack P b).index.contains q = true := by
  rw [flush_pack_index]
  exact contains_foldl_add b.id b.blobs r.index q h

theorem storeLoop_cons (P : Params) (c : Chunk) (cs : List Chunk) (r : Repository)
    (b : PackBuilder) (refs : List ChunkRef) :
    Repository.storeLoop P (c :: cs) r b refs =
      if r.index.contains c.hash then Repository.storeLoop P cs r b (refs ++ [c.to_ref])
      else
        if (b.add c).should_flush then
          Repository.storeLoop P cs
            { (r.flush_pack P (b.add c)) with ctr := (r.flush_pack P (b.add c)).ctr + 1 }
            (PackBuilder.new (P.idGen (r.flush_pack P (b.add c)).ctr)) (refs ++ [c.to_ref])
        else Repository.storeLoop P cs r (b.add c) (refs ++ [c.to_ref]) := rfl

theorem storeLoop_refs (P : Params) :
    ∀ (cs : List Chunk) (r : Repository) (b : PackBuilder) (refs : List ChunkRef),
      (Repository.storeLoop P cs r b refs).1 = refs ++ cs.map Chunk.to_ref := by
  intro cs
  induction cs with
  | nil => intro r b refs; simp [Repository.storeLoop]
  | cons c cs ih =>
    intro r b refs
    rw [storeLoop_cons]
    by_cases hc : r.index.contains c.hash
    · rw [if_pos hc, ih]
      simp
    · rw [if_neg hc]
      by_cases hf : (b.add c).should_flush
      · rw [if_pos hf, ih]
        simp
      · rw [if_neg hf, ih]
        simp

theorem storeLoop_skip_all (P : Params) :
    ∀ (cs : List Chunk) (r : Repository) (b : PackBuilder) (refs : List ChunkRef),
      (∀ c ∈ cs, r.index.contains c.hash = true) →
      Repository.storeLoop P cs r b refs = (refs ++ cs.map Chunk.to_ref, r, b) := by
  intro cs
  induction cs with
  | nil => intro r b refs _; simp [Repository.storeLoop]
  | cons c cs ih =>
    intro r b refs hall
    rw [storeLoop_cons, if_pos (hall c (List.mem_cons_self c cs)),
      ih r b _ (fun x hx => hall x (List.mem_cons_of_mem c hx))]
    simp

theorem storeLoop_transport (P : Params) :
    ∀ (cs : List Chunk) (r : Repository) (b : PackBuilder) (refs : List ChunkRef) (q : Bytes),
      (r.index.contains q = true ∨ q ∈ b.blobs.map PackedBlob.hash) →
      ((Repository.storeLoop P cs r b refs).2.1.index.contains q = true ∨
        q ∈ (Repository.storeLoop P cs r b refs).2.2.blobs.map PackedBlob.hash) := by
  intro cs
  induction cs with
  | nil => intro r b refs q h; exact h
  | cons c cs ih =>
    intro r b refs q h
    rw [storeLoop_cons]
    by_cases hc : r.index.contains c.hash
    · rw [if_pos hc]
      exact ih _ _ _ _ h
    · rw [if_neg hc]
      by_cases hf : (b.add c).should_flush
      · rw [if_pos hf]
        refine ih _ _ _ _ (Or.inl (flush_pack_contains P r (b.add c) q ?_))
        rcases h with h | h
        · exact Or.inl h
        · right
          rw [add_blobs, List.map_append]
          exact List.mem_append_left _ h
      · rw [if_neg hf]
        refine ih _ _ _ _ ?_
        rcases h with h | h
        · exact Or.inl h
        · right
          rw [add_blobs, List.map_append]
          exact List.mem_append_left _ h

theorem storeLoop_processed (P : Params) :
    ∀ (cs : List Chunk) (r : Repository) (b : PackBuilder) (refs : List ChunkRef),
      ∀ c ∈ cs,
        (Repository.storeLoop P cs r b refs).2.1.index.contains c.hash = true ∨
          c.hash ∈ (Repository.storeLoop P cs r b refs).2.2.blobs.map PackedBlob.hash := by
  intro cs
  induction cs with
  | nil => intro r b refs c hc; simp at hc
  | cons c0 cs ih =>
    intro r b refs c hc
    rcases List.mem_cons.1 hc with rfl | hc
    · rw [storeLoop_cons]
      by_cases hc0 : r.index.contains c.hash
      · rw [if_pos hc0]
        exact storeLoop_transport P cs _ _ _ _ (Or.inl hc0)
      · rw [if_neg hc0]
        by_cases hf : (b.add c).should_flush
        · rw [if_pos hf]
          refine storeLoop_transport P cs _ _ _ _
            (Or.inl (flush_pack_contains P r (b.add c) c.hash (Or.inr ?_)))
          rw [add_blobs, List.map_append]
          exact List.mem_append_right _ (by simp)
        · rw [if_neg hf]
          refine storeLoop_transport P cs _ _ _ _ (Or.inr ?_)
          rw [add_blobs, List.map_append]
          exact List.mem_append_right _ (by simp)
    · rw [storeLoop_cons]
      by_cases hc0 : r.index.contains c0.hash
      · rw [if_pos hc0]
        exact ih _ _ _ c hc
      · rw [if_neg hc0]
        by_cases hf : (b.add c0).should_flush
        · rw [if_pos hf]
          exact ih _ _ _ c hc
        · rw [if_neg hf]
          exact ih _ _ _ c hc

theorem store_data_eq (P : Params) (r : Repository) (data : Bytes) :
    Repository.store_data P r data =
      if (storePass P r data).2.2.is_empty then
        ((storePass P r data).1, (storePass P r data).2.1)
      else
        ((storePass P r data).1, (storePass P r data).2.1.flush_pack P (storePass P r data).2.2) := rfl

theorem storePass_refs (P : Params) (r : Repository) (data : Bytes) :
    (storePass P r data).1 = (Chunker.chunk P data).map Chunk.to_ref := by
  simp only [storePass]
  rw [storeLoop_refs]
  simp

theorem store_data_refs (P : Params) (r : Repository) (data : Bytes) :
    (Repository.store_data P r data).1 = (Chunker.chunk P data).map Chunk.to_ref := by
  rw [store_data_eq]
  by_cases h : (storePass P r data).2.2.is_empty
  · rw [if_pos h]
    exact storePass_refs P r data
  · rw [if_neg h]
    exact storePass_refs P r data

theorem store_data_contains (P : Params) (r : Repository) (data : Bytes) :
    ∀ c ∈ Chunker.chunk P data,
      (Repository.store_data P r data).2.index.contains c.hash = true := by
  intro c hc
  have hp := storeLoop_processed P (Chunker.chunk P data) { r with ctr := r.ctr + 1 }
    (PackBuilder.new (P.idGen r.ctr)) [] c hc
  rw [store_data_eq]
  by_cases h : (storePass P r data).2.2.is_empty
  · rw [if_pos h]
    rcases hp with hp | hp
    · exact hp
    · have hnil : (storePass P r data).2.2.blobs = [] := by
        have := List.isEmpty_iff.1 h
        exact this
      rw [show (storePass P r data).2.2.blobs
          = (Repository.storeLoop P (Chunker.chunk P data) { r with ctr := r.ctr + 1 }
              (PackBuilder.new (P.idGen r.ctr)) []).2.2.blobs from rfl] at hnil
      rw [hnil] at hp
      simp at hp
  · rw [if_neg h]
    exact flush_pack_contains P _ _ _ (by exact hp)

/-- Claim C4: calling `store_data(b)` a second time on the same repository
returns a ChunkRef vector equal to the first call's, performs no
object-store writes at all (the store, hence the set of pack objects, is
unchanged), and leaves the in-memory index unchanged. -/
theorem C4_store_twice (P : Params) (r : Repository) (data : Bytes) :
    (Repository.store_data P (Repository.store_data P r data).2 data).1
      = (Repository.store_data P r data).1 ∧
    (Repository.store_data P (Repository.store_data P r data).2 data).2.index
      = (Repository.store_data P r data).2.index ∧
    (Repository.store_data P (Repository.store_data P r data).2 data).2.store
      = (Repository.store_data P r data).2.store ∧
    Store.list (Repository.store_data P (Repository.store_data P r data).2 data).2.store packsDir
      = Store.list (Repository.store_data P r data).2.store packsDir := by
  have hall := store_data_contains P r data
  have hpass : storePass P (Repository.store_data P r data).2 data
      = ([] ++ (Chunker.chunk P data).map Chunk.to_ref,
          { (Repository.store_data P r data).2 with
              ctr := (Repository.store_data P r data).2.ctr + 1 },
          PackBuilder.new (P.idGen (Repository.store_data P r data).2.ctr)) := by
    simp only [storePass]
    exact storeLoop_skip_all P (Chunker.chunk P data) _ _ [] (fun c hc => hall c hc)
  have h2 : Repository.store_data P (Repository.store_data P r data).2 data
      = ((Chunker.chunk P data).map Chunk.to_ref,
          { (Repository.store_data P r data).2 with
              ctr := (Repository.store_data P r data).2.ctr + 1 }) := by
    rw [store_data_eq, hpass]
    simp [PackBuilder.new, PackBuilder.is_empty]
  rw [h2, store_data_refs]
  exact ⟨rfl, rfl, rfl, rfl⟩

/-- Claim C9: when every chunk of the input is already present in the
in-memory index — in particular for the empty input, which yields no
chunks — `store_data` makes no object-store writes (neither a pack nor an
`index.json` rewrite), leaves the in-memory index unchanged, and still
returns the complete ChunkRef vector of the input. -/
theorem C9_store_noop (P : Params) (r : Repository) (data : Bytes)
    (hall : ∀ c ∈ Chunker.chunk P data, r.index.contains c.hash = true) :
    (Repository.store_data P r data).1 = (Chunker.chunk P data).map Chunk.to_ref ∧
    (Repository.store_data P r data).2.index = r.index ∧
    (Repository.store_data P r data).2.store = r.store := by
  have hpass : storePass P r data
      = ([] ++ (Chunker.chunk P data).map Chunk.to_ref,
          { r with ctr := r.ctr + 1 }, PackBuilder.new (P.idGen r.ctr)) := by
    simp only [storePass]
    exact storeLoop_skip_all P (Chunker.chunk P data) _ _ [] (fun c hc => hall c hc)
  have h2 : Repository.store_data P r data
      = ((Chunker.chunk P data).map Chunk.to_ref, { r with ctr := r.ctr + 1 }) := by
    rw [store_data_eq, hpass]
    simp [PackBuilder.new, PackBuilder.is_empty]
  rw [h2]
  exact ⟨rfl, rfl, rfl⟩

/-- Witness for C9 at the empty input on a fresh repository: the chunker
yields no chunks, the hypothesis holds vacuously, and nothing changes. -/
theorem C9_store_noop_witness :
    (∀ c ∈ Chunker.chunk P0 [], r0.index.contains c.hash = true) ∧
    ((Repository.store_data P0 r0 []).1 = (Chunker.chunk P0 []).map Chunk.to_ref ∧
      (Repository.store_data P0 r0 []).2.index = r0.index ∧
      (Repository.store_data P0 r0 []).2.store = r0.store) :=
  ⟨by decide, C9_store_noop P0 r0 [] (by decide)⟩

/-- Claim C1: the claim (and spec 4.7) demand that the in-memory index be
updated only after the pack write succeeded; the code instead inserts all
of the pack's blobs into the in-memory index before issuing the pack
write (repository.rs lines 207-212).  On a backend whose write fails, the
flush returns the error, the store is untouched — but the in-memory index
now contains the failed pack's blob, contradicting the claim. -/
theorem C1_flush_mutates_index_on_failed_write :
    (Repository.flush_packE P0 (fun _ => true) r0 ((PackBuilder.new ['p']).add cA)).2 = none ∧
    (Repository.flush_packE P0 (fun _ => true) r0
        ((PackBuilder.new ['p']).add cA)).1.index.contains [7] = true ∧
    (Repository.flush_packE P0 (fun _ => true) r0 ((PackBuilder.new ['p']).add cA)).1.store
      = r0.store := by
  decide

/-! ## Invariant preservation for the round-trip (C2) -/

theorem add_data (b : PackBuilder) (c : Chunk) : (b.add c).data = b.data ++ c.data := rfl

theorem builderOk_add (P : Params) (r : Repository) (b : PackBuilder) (c : Chunk)
    (hb : BuilderOk P r b) (hsz : b.data.length + c.data.length < U32)
    (hch : P.hashFn c.data = c.hash) : BuilderOk P r (b.add c) := by
  obtain ⟨h1, h2, h3, h4, h5⟩ := hb
  refine ⟨?_, ?_, h3, h4, h5⟩
  · rw [add_data, List.length_append]
    omega
  · intro bl hbl
    rw [add_blobs] at hbl
    rcases List.mem_append.1 hbl with hbl | hbl
    · obtain ⟨hb1, hb2⟩ := h2 bl hbl
      constructor
      · rw [add_data, List.length_append]
        omega
      · rw [add_data, sliceAt_prefix _ _ _ _ hb1]
        exact hb2
    · have hbl' := List.mem_singleton.1 hbl
      subst hbl'
      have hoff : b.data.length % U32 = b.data.length := Nat.mod_eq_of_lt (by omega)
      have hlen2 : c.data.length % U32 = c.data.length := Nat.mod_eq_of_lt (by omega)
      constructor
      · show b.data.length % U32 + c.data.length % U32 ≤ (b.add c).data.length
        rw [hoff, hlen2, add_data, List.length_append]
      · show P.hashFn (sliceAt (b.add c).data (b.data.length % U32) (c.data.length % U32)) = c.hash
        rw [hoff, hlen2, add_data, sliceAt_append_self]
        exact hch

theorem flush_read_pack (P : Params) (r : Repository) (b : PackBuilder) (q : Str) :
    Store.read (r.flush_pack P b).store (packsKey q)
      = if q = b.id then some (b.finalize P.encHeader).data
        else Store.read r.store (packsKey q) := by
  rw [flush_pack_store, Store.read_write_ne _ _ _ _ (packsKey_ne_indexKey q)]
  by_cases hq : q = b.id
  · subst hq
    rw [if_pos rfl, Store.read_write_self]
  · rw [if_neg hq, Store.read_write_ne _ _ _ _ (fun he => hq (packsKey_inj he))]

theorem entries_foldl_add (pid : Str) :
    ∀ (blobs : List PackedBlob) (i : Index) (e : Bytes × BlobLocation),
      e ∈ (blobs.foldl (fun j bl => j.add bl.hash pid bl.offset bl.length) i).entries →
      e ∈ i.entries ∨ ∃ bl ∈ blobs, e = (bl.hash, ⟨pid, bl.offset, bl.length⟩) := by
  intro blobs
  induction blobs with
  | nil =>
    intro i e he
    exact Or.inl he
  | cons bl blobs ih =>
    intro i e he
    rw [List.foldl_cons] at he
    rcases ih _ e he with he | ⟨bl', hbl', he⟩
    · rcases List.mem_append.1 he with he | he
      · exact Or.inl (List.mem_filter.1 he).1
      · refine Or.inr ⟨bl, List.mem_cons_self bl blobs, ?_⟩
        exact List.mem_singleton.1 he
    · exact Or.inr ⟨bl', List.mem_cons_of_mem bl hbl', he⟩

theorem flush_preserve (P : Params) (r : Repository) (b : PackBuilder)
    (hinv : RepoInv P r) (hfresh : FreshIds P r) (hb : BuilderOk P r b) :
    RepoInv P (r.flush_pack P b) ∧ FreshIds P (r.flush_pack P b) := by
  obtain ⟨hb1, hb2, ⟨k, hk, hbid⟩, hb4, hb5⟩ := hb
  obtain ⟨hf1, hf2, hf3⟩ := hfresh
  have hentries : ∀ e ∈ (r.flush_pack P b).index.entries,
      e ∈ r.index.entries ∨
        ∃ bl ∈ b.blobs, e = (bl.hash, ⟨b.id, bl.offset, bl.length⟩) := by
    intro e he
    rw [flush_pack_index] at he
    exact entries_foldl_add b.id b.blobs r.index e he
  constructor
  · intro e he
    rcases hentries e he with he | ⟨bl, hbl, rfl⟩
    · obtain ⟨pd, hpd, hle, hlt, hhash⟩ := hinv e he
      refine ⟨pd, ?_, hle, hlt, hhash⟩
      rw [flush_read_pack, if_neg (hb5 e he)]
      exact hpd
    · obtain ⟨hle, hhash⟩ := hb2 bl hbl
      refine ⟨(b.finalize P.encHeader).data, ?_, ?_, ?_, ?_⟩
      · show Store.read (r.flush_pack P b).store (packsKey b.id) = _
        rw [flush_read_pack, if_pos rfl]
      · show bl.offset + bl.length ≤ (b.finalize P.encHeader).data.length
        rw [finalize_data_length]
        omega
      · show bl.offset + bl.length < U32
        omega
      · show P.hashFn (sliceAt (b.finalize P.encHeader).data bl.offset bl.length) = bl.hash
        rw [finalize_data, List.append_assoc, sliceAt_prefix _ _ _ _ hle]
        exact hhash
  · refine ⟨hf1, ?_, ?_⟩
    · intro n hn
      rw [flush_pack_ctr] at hn
      have hne : P.idGen n ≠ b.id := by
        rw [hbid]
        intro he
        have := hf1 _ _ he
        omega
      rw [flush_read_pack, if_neg hne]
      exact hf2 n hn
    · intro n hn e he
      rw [flush_pack_ctr] at hn
      rcases hentries e he with he | ⟨bl, hbl, rfl⟩
      · exact hf3 n hn e he
      · show b.id ≠ P.idGen n
        rw [hbid]
        intro he'
        have := hf1 _ _ he'
        omega

theorem storeLoop_inv (P : Params) :
    ∀ (cs : List Chunk) (r : Repository) (b : PackBuilder) (refs : List ChunkRef),
      RepoInv P r → FreshIds P r → BuilderOk P r b →
      (∀ c ∈ cs, P.hashFn c.data = c.hash) →
      b.data.length + (cs.map (fun c => c.data.length)).sum < U32 →
      RepoInv P (Repository.storeLoop P cs r b refs).2.1 ∧
      FreshIds P (Repository.storeLoop P cs r b refs).2.1 ∧
      BuilderOk P (Repository.storeLoop P cs r b refs).2.1
        (Repository.storeLoop P cs r b refs).2.2 := by
  intro cs
  induction cs with
  | nil =>
    intro r b refs hinv hfresh hb _ _
    exact ⟨hinv, hfresh, hb⟩
  | cons c cs ih =>
    intro r b refs hinv hfresh hb hgood hbudget
    simp only [List.map_cons, List.sum_cons] at hbudget
    rw [storeLoop_cons]
    by_cases hc : r.index.contains c.hash
    · rw [if_pos hc]
      exact ih r b _ hinv hfresh hb (fun x hx => hgood x (List.mem_cons_of_mem c hx))
        (by omega)
    · rw [if_neg hc]
      have hb' : BuilderOk P r (b.add c) :=
        builderOk_add P r b c hb (by omega) (hgood c (List.mem_cons_self c cs))
      have hlen' : (b.add c).data.length = b.data.length + c.data.length := by
        rw [add_data, List.length_append]
      by_cases hf : (b.add c).should_flush
      · rw [if_pos hf]
        obtain ⟨hinv', hfresh'⟩ := flush_preserve P r (b.add c) hinv hfresh hb'
        have hfresh'' : FreshIds P { r.flush_pack P (b.add c) with
            ctr := (r.flush_pack P (b.add c)).ctr + 1 } := by
          obtain ⟨g1, g2, g3⟩ := hfresh'
          refine ⟨g1, ?_, ?_⟩
          · intro n hn
            have hn' : (r.flush_pack P (b.add c)).ctr + 1 ≤ n := hn
            exact g2 n (by omega)
          · intro n hn
            have hn' : (r.flush_pack P (b.add c)).ctr + 1 ≤ n := hn
            exact g3 n (by omega)
        have hbnew : BuilderOk P { r.flush_pack P (b.add c) with
              ctr := (r.flush_pack P (b.add c)).ctr + 1 }
            (PackBuilder.new (P.idGen (r.flush_pack P (b.add c)).ctr)) := by
          refine ⟨by simp [PackBuilder.new, U32], ?_, ?_, ?_, ?_⟩
          · intro bl hbl
            simp [PackBuilder.new] at hbl
          · exact ⟨(r.flush_pack P (b.add c)).ctr, Nat.lt_succ_self _, rfl⟩
          · exact hfresh'.2.1 _ le_rfl
          · exact hfresh'.2.2 _ le_rfl
        exact ih _ _ _ hinv' hfresh'' hbnew
          (fun x hx => hgood x (List.mem_cons_of_mem c hx)) (by simp [PackBuilder.new]; omega)
      · rw [if_neg hf]
        exact ih r (b.add c) _ hinv hfresh hb'
          (fun x hx => hgood x (List.mem_cons_of_mem c hx)) (by omega)

theorem store_data_inv (P : Params) (r : Repository) (data : Bytes)
    (hcut : CutValid P.cutBig) (hinv : RepoInv P r) (hfresh : FreshIds P r)
    (hsize : data.length < U32) :
    RepoInv P (Repository.store_data P r data).2 := by
  have hsum : ((Chunker.chunk P data).map (fun c => c.data.length)).sum = data.length := by
    have h1 := (chunk_covers P data hcut).2
    have h2 : (Chunker.chunk P data).map (fun c => c.data.length)
        = (Chunker.chunk P data).map Chunk.length := by
      apply List.map_congr_left
      intro c hc
      exact ((chunksOfPieces_shape P.hashFn _ _ c hc).2).symm
    rw [h2, h1]
  have hgood : ∀ c ∈ Chunker.chunk P data, P.hashFn c.data = c.hash := by
    intro c hc
    exact ((chunksOfPieces_shape P.hashFn _ _ c hc).1).symm
  have hfresh1 : FreshIds P { r with ctr := r.ctr + 1 } := by
    obtain ⟨g1, g2, g3⟩ := hfresh
    refine ⟨g1, ?_, ?_⟩
    · intro n hn
      have hn' : r.ctr + 1 ≤ n := hn
      exact g2 n (by omega)
    · intro n hn
      have hn' : r.ctr + 1 ≤ n := hn
      exact g3 n (by omega)
  have hbnew : BuilderOk P { r with ctr := r.ctr + 1 } (PackBuilder.new (P.idGen r.ctr)) := by
    refine ⟨by simp [PackBuilder.new, U32], ?_, ?_, ?_, ?_⟩
    · intro bl hbl
      simp [PackBuilder.new] at hbl
    · exact ⟨r.ctr, Nat.lt_succ_self _, rfl⟩
    · exact hfresh.2.1 _ le_rfl
    · exact hfresh.2.2 _ le_rfl
  have hloop := storeLoop_inv P (Chunker.chunk P data) { r with ctr := r.ctr + 1 }
    (PackBuilder.new (P.idGen r.ctr)) [] hinv hfresh1 hbnew hgood
    (by simp [PackBuilder.new]; omega)
  rw [store_data_eq]
  by_cases h : (storePass P r data).2.2.is_empty
  · rw [if_pos h]
    exact hloop.1
  · rw [if_neg h]
    exact (flush_preserve P _ _ hloop.1 hloop.2.1 hloop.2.2).1

theorem read_data_cons (r : Repository) (cr : ChunkRef) (rest : List ChunkRef) :
    Repository.read_data r (cr :: rest) =
      match r.index.lookup cr.hash with
      | none => none
      | some loc =>
        match Store.read r.store (packsKey loc.pack_id) with
        | none => none
        | some pd =>
          match Repository.read_data r rest with
          | none => none
          | some acc =>
            some ((pd.take ((loc.offset + loc.length) % U32)).drop loc.offset ++ acc) := rfl

theorem read_data_chunks (P : Params) (r : Repository)
    (hinj : Function.Injective P.hashFn) (hinv : RepoInv P r) :
    ∀ cs : List Chunk,
      (∀ c ∈ cs, P.hashFn c.data = c.hash ∧ r.index.contains c.hash = true) →
      Repository.read_data r (cs.map Chunk.to_ref) = some ((cs.map Chunk.data).flatten) := by
  intro cs
  induction cs with
  | nil => intro _; rfl
  | cons c cs ih =>
    intro hall
    obtain ⟨hch, hcont⟩ := hall c (List.mem_cons_self c cs)
    obtain ⟨e, hfind⟩ := Option.isSome_iff_exists.1 hcont
    have he1 : e.1 = c.hash := by
      have := List.find?_some hfind
      simpa using this
    have hmem : e ∈ r.index.entries := List.mem_of_find?_eq_some hfind
    obtain ⟨pd, hpd, hle, hlt, hhash⟩ := hinv e hmem
    have hlookup : r.index.lookup c.hash = some e.2 := by
      rw [Index.lookup, hfind]
      rfl
    have hslice : (pd.take (e.2.offset + e.2.length)).drop e.2.offset = c.data := by
      apply hinj
      rw [show (pd.take (e.2.offset + e.2.length)).drop e.2.offset
          = sliceAt pd e.2.offset e.2.length from rfl, hhash, he1, hch]
    rw [List.map_cons, read_data_cons]
    have hhd : (c.to_ref).hash = c.hash := rfl
    rw [hhd, hlookup]
    simp only [hpd, ih (fun x hx => hall x (List.mem_cons_of_mem c hx)),
      Nat.mod_eq_of_lt hlt, hslice, List.map_cons, List.flatten_cons]

/-- Claim C2: on an opened repository satisfying the spec's index
invariant (every entry points at existing pack bytes that hash back to its
key), with a collision-free hash, a fastcdc cut obeying its contract,
fresh uuids, and an input below the `u32` horizon, `store_data(b)` followed
by `read_data` on the returned ChunkRef vector yields exactly `b`. -/
theorem C2_store_read_roundtrip (P : Params) (r : Repository) (data : Bytes)
    (hinj : Function.Injective P.hashFn) (hcut : CutValid P.cutBig)
    (hinv : RepoInv P r) (hfresh : FreshIds P r) (hsize : data.length < U32) :
    Repository.read_data (Repository.store_data P r data).2
      (Repository.store_data P r data).1 = some data := by
  rw [store_data_refs]
  have hinv' := store_data_inv P r data hcut hinv hfresh hsize
  have hcont := store_data_contains P r data
  have hgood : ∀ c ∈ Chunker.chunk P data, P.hashFn c.data = c.hash := by
    intro c hc
    exact ((chunksOfPieces_shape P.hashFn _ _ c hc).1).symm
  rw [read_data_chunks P _ hinj hinv' (Chunker.chunk P data)
    (fun c hc => ⟨hgood c hc, hcont c hc⟩)]
  rw [(chunk_covers P data hcut).1]

theorem P0_hash_inj : Function.Injective P0.hashFn := fun _ _ h => h

theorem P0_fresh_r0 : FreshIds P0 r0 := by
  refine ⟨?_, ?_, ?_⟩
  · intro n m h
    have := congrArg List.length h
    simpa [P0] using this
  · intro n _
    rfl
  · intro n _ e he
    simp [r0, Index.new] at he

theorem P0_inv_r0 : RepoInv P0 r0 := by
  intro e he
  simp [r0, Index.new] at he

/-- Witness for C2 at a concrete three-byte input on a fresh repository. -/
theorem C2_store_read_roundtrip_witness :
    Repository.read_data (Repository.store_data P0 r0 [1, 2, 3]).2
      (Repository.store_data P0 r0 [1, 2, 3]).1 = some [1, 2, 3] :=
  C2_store_read_roundtrip P0 r0 [1, 2, 3] P0_hash_inj P0_cutValid P0_inv_r0 P0_fresh_r0
    (by decide)

/-! ## Verify lemmas (C7) -/

theorem verify_errs_fold (found : List Str) :
    ∀ (entries : List (Bytes × BlobLocation)) (acc : List Str),
      entries.foldl (fun es e => if decide (e.2.pack_id ∈ found) then es
          else es ++ [errMsg e.1 e.2.pack_id]) acc
        = acc ++ (entries.filter (fun e => decide (e.2.pack_id ∉ found))).map
            (fun e => errMsg e.1 e.2.pack_id) := by
  intro entries
  induction entries with
  | nil => intro acc; simp
  | cons e es ih =>
    intro acc
    rw [List.foldl_cons, List.filter_cons]
    by_cases h : e.2.pack_id ∈ found
    · rw [if_pos (decide_eq_true h),
        if_neg (show ¬ (decide (e.2.pack_id ∉ found) = true) by simp [h])]
      exact ih acc
    · rw [if_neg (show ¬ (decide (e.2.pack_id ∈ found) = true) by simp [h]),
        if_pos (decide_eq_true h), ih (acc ++ [errMsg e.1 e.2.pack_id]), List.append_assoc]
      rfl

/-- Claim C7: `verify` appends "blob <hex> references missing pack <id>"
for exactly those index entries whose pack id is not among the names of
the objects listed under `packs/`, its result is OK iff `errors` is empty,
and when every entry's pack exists the error list is empty.  The
hypothesis is that `verify` returned at all (its snapshot-listing pass can
fail on a corrupt snapshot file). -/
theorem C7_verify (P : Params) (r : Repository) (v : VerifyResult)
    (hv : Repository.verify P r = some v) :
    v.errors = (r.index.entries.filter
        (fun e => decide (e.2.pack_id ∉ (Store.list r.store packsDir).map afterLastSlash))).map
        (fun e => errMsg e.1 e.2.pack_id) ∧
    (v.is_ok = true ↔ v.errors = []) ∧
    ((∀ e ∈ r.index.entries,
        e.2.pack_id ∈ (Store.list r.store packsDir).map afterLastSlash) → v.errors = []) := by
  unfold Repository.verify at hv
  cases hls : Repository.list_snapshots P r with
  | none =>
    rw [hls] at hv
    exact absurd hv (by simp)
  | some snaps =>
    rw [hls] at hv
    have hv' := Option.some.inj hv
    have herr : v.errors = (r.index.entries.filter
        (fun e => decide (e.2.pack_id ∉ (Store.list r.store packsDir).map afterLastSlash))).map
        (fun e => errMsg e.1 e.2.pack_id) := by
      rw [← hv']
      show (r.index.entries.foldl _ []) = _
      rw [verify_errs_fold]
      simp
    refine ⟨herr, ?_, ?_⟩
    · rw [VerifyResult.is_ok, List.isEmpty_iff]
    · intro hall
      rw [herr, List.filter_eq_nil_iff.2 ?_]
      · rfl
      · intro e he
        simp only [decide_eq_true_eq, Decidable.not_not]
        exact hall e he

/-- Witness for C7 on a repository with one existing and one missing
pack. -/
theorem C7_verify_witness :
    Repository.verify P0 rC7 = some vC7 ∧
    vC7.errors = [errMsg [2] "ghost".toList] ∧
    (vC7.is_ok = true ↔ vC7.errors = []) :=
  ⟨by decide, by decide, (C7_verify P0 rC7 vC7 (by decide)).2.1⟩

/-! ## Snapshot lookup lemmas (C8) -/

theorem startsB_refl_append : ∀ (p t : Str), startsB p (p ++ t) = true := by
  intro p
  induction p with
  | nil => intro t; rfl
  | cons a p ih => intro t; simp [startsB, ih]

theorem hasSubB_of_startsB (s pat : Str) (h : startsB pat s = true) : hasSubB s pat = true := by
  cases s with
  | nil => exact h
  | cons c rest => simp [hasSubB, h]

theorem hasSubB_append_left (pat : Str) :
    ∀ (t s : Str), hasSubB s pat = true → hasSubB (t ++ s) pat = true := by
  intro t
  induction t with
  | nil => intro s h; exact h
  | cons c t ih => intro s h; simp [hasSubB, ih s h]

theorem endsB_append (s pat : Str) : endsB (s ++ pat) pat = true := by
  unfold endsB
  rw [List.reverse_append]
  exact startsB_refl_append _ _

theorem snapKey_assoc (id : Str) :
    snapKey id = "snapshots/".toList ++ (id ++ ".json".toList) := by
  unfold snapKey
  rw [List.append_assoc]

theorem childOf_snapKey (id : Str) (hslash : '/' ∉ id) :
    childOfB snapshotsDir (snapKey id) = true := by
  unfold childOfB
  rw [Bool.and_eq_true]
  have h1 : snapshotsDir ++ ['/'] = "snapshots/".toList := by decide
  have h3 : snapshotsDir.length + 1 = ("snapshots/".toList).length := by decide
  constructor
  · rw [h1, snapKey_assoc]
    exact startsB_refl_append _ _
  · rw [snapKey_assoc, h3, List.drop_left, List.all_append, Bool.and_eq_true]
    constructor
    · rw [List.all_eq_true]
      intro c hc
      simp only [decide_eq_true_eq]
      intro he
      exact hslash (he ▸ hc)
    · decide

theorem mem_list_write_self (s : Store) (k : Str) (v : Bytes) (pre : Str)
    (hch : childOfB pre k = true) : k ∈ Store.list (Store.write s k v) pre := by
  simp only [Store.list]
  rw [mem_sortStrs]
  refine List.mem_filter.2 ⟨?_, hch⟩
  show k ∈ (Store.write s k v).map (fun e => e.1)
  unfold Store.write
  rw [List.map_append]
  exact List.mem_append_right _ (by simp)

theorem getSnapLoop_cons (P : Params) (r : Repository) (id p : Str) (ps : List Str) :
    getSnapLoop P r id (p :: ps) =
      if hasSubB p id && endsB p ".json".toList then
        match Store.read r.store p with
        | none => .error .readFail
        | some d =>
          match P.decSnap d with
          | none => .error .parseFail
          | some s => .ok s
      else getSnapLoop P r id ps := rfl

theorem getSnapLoop_notfound (P : Params) (r : Repository) (id : Str) :
    ∀ paths, (∀ k ∈ paths, hasSubB k id = false) →
      getSnapLoop P r id paths = .error .notFound := by
  intro paths
  induction paths with
  | nil => intro _; rfl
  | cons p ps ih =>
    intro hall
    rw [getSnapLoop_cons, if_neg (by simp [hall p (List.mem_cons_self p ps)])]
    exact ih (fun k hk => hall k (List.mem_cons_of_mem p hk))

theorem getSnapLoop_finds (P : Params) (r : Repository) (id target : Str) (d : Bytes)
    (S : Snapshot) (hread : Store.read r.store target = some d)
    (hdec : P.decSnap d = some S)
    (hsub : hasSubB target id = true) (hend : endsB target ".json".toList = true) :
    ∀ paths, target ∈ paths →
      (∀ k ∈ paths, hasSubB k id = true → k = target) →
      getSnapLoop P r id paths = .ok S := by
  intro paths
  induction paths with
  | nil => intro hmem _; simp at hmem
  | cons p ps ih =>
    intro hmem huniq
    by_cases hcond : hasSubB p id && endsB p ".json".toList
    · have hp : p = target := huniq p (List.mem_cons_self p ps) (Bool.and_eq_true .. ▸ hcond).1
      subst hp
      rw [getSnapLoop_cons, if_pos hcond, hread]
      simp only [hdec]
    · rw [getSnapLoop_cons, if_neg hcond]
      have hmem' : target ∈ ps := by
        rcases List.mem_cons.1 hmem with rfl | hmem'
        · exact absurd (by rw [hsub, hend]; rfl) hcond
        · exact hmem'
      exact ih hmem' (fun k hk => huniq k (List.mem_cons_of_mem p hk))

/-- Claim C8: after `save_snapshot(S)`, `get_snapshot` on the first 8
characters of `S.id` returns a snapshot equal to `S`; `get_snapshot`
returns the first listed snapshot whose filename contains the supplied
substring, so the hypothesis asks that `S`'s file is the only listed match
(uuid randomness makes an 8-hex-character collision between snapshot
filenames negligible, and the claim itself fixes the first-match rule);
and `get_snapshot` fails with NotFound when no listed filename contains
the supplied string. -/
theorem C8_save_then_get (P : Params) (r : Repository) (S : Snapshot)
    (hslash : '/' ∉ S.id)
    (hdec : P.decSnap (P.encSnap S) = some S)
    (huniq : ∀ k ∈ Store.list (Repository.save_snapshot P r S).store snapshotsDir,
        hasSubB k (S.id.take 8) = true → k = snapKey S.id) :
    Repository.get_snapshot P (Repository.save_snapshot P r S) (S.id.take 8) = .ok S ∧
    (∀ (r' : Repository) (id : Str),
        (∀ k ∈ Store.list r'.store snapshotsDir, hasSubB k id = false) →
        Repository.get_snapshot P r' id = .error .notFound) := by
  constructor
  · unfold Repository.get_snapshot
    have hread : Store.read (Repository.save_snapshot P r S).store (snapKey S.id)
        = some (P.encSnap S) := by
      unfold Repository.save_snapshot
      exact Store.read_write_self _ _ _
    have hsub : hasSubB (snapKey S.id) (S.id.take 8) = true := by
      rw [snapKey_assoc]
      apply hasSubB_append_left
      rw [show S.id ++ ".json".toList
          = S.id.take 8 ++ (S.id.drop 8 ++ ".json".toList) by
        rw [← List.append_assoc, List.take_append_drop]]
      exact hasSubB_of_startsB _ _ (startsB_refl_append _ _)
    have hend : endsB (snapKey S.id) ".json".toList = true := by
      unfold snapKey
      exact endsB_append _ _
    have hmem : snapKey S.id ∈ Store.list (Repository.save_snapshot P r S).store snapshotsDir := by
      unfold Repository.save_snapshot
      exact mem_list_write_self _ _ _ _ (childOf_snapKey S.id hslash)
    exact getSnapLoop_finds P _ (S.id.take 8) (snapKey S.id) (P.encSnap S) S hread hdec
      hsub hend _ hmem huniq
  · intro r' id hall
    exact getSnapLoop_notfound P r' id _ hall

/-- Witness for C8: save a snapshot with id "abcdefgh" into a fresh
repository, retrieve it by its 8-character prefix; a query matching
nothing on the fresh repository reports NotFound. -/
theorem C8_save_then_get_witness :
    Repository.get_snapshot P0 (Repository.save_snapshot P0 r0 S8) (S8.id.take 8) = .ok S8 ∧
    Repository.get_snapshot P0 r0 ['z'] = .error .notFound :=
  ⟨(C8_save_then_get P0 r0 S8 (by decide) (by decide) (by decide)).1,
    (C8_save_then_get P0 r0 S8 (by decide) (by decide) (by decide)).2 r0 ['z'] (by decide)⟩

end M365B
